import Mathlib

/-
Verification of the diagonal-sudoku constraint solver in `solution.py`.

Shallow embedding conventions:
  * A cell identifier `'A1'..'I9'` is encoded as the natural number `9*r + c`
    with `r, c ∈ 0..8` (`'A'..'I'` ↦ `0..8`, `'1'..'9'` ↦ `0..8`), so the
    Python list `boxes` becomes `[0, 1, ..., 80]` in the same order.
  * A candidate digit character `'1'..'9'` is encoded as the natural number
    `1..9`; a domain string becomes a `List Nat` in the same character order.
  * A Python `values` dictionary always has exactly the 81 keys of `boxes`
    (insertion order `A1..I9`) or is the empty dict `{}` used as the failure
    value.  It is embedded as a `List (List Nat)` whose entry `i` is the
    domain of cell `i`; the empty dict is the empty list `[]`.
  * A missing-key lookup (Python `KeyError`) and the unbounded `while` loop
    are made explicit with an error monad `Except Err` and a fuel parameter;
    `Err.keyError` is a raised `KeyError`, `Err.noFuel` means the fuel bound
    was not enough to reach the loop exit taken by the Python code.
-/

/-- `Err.keyError`: the call raised a Python `KeyError`;
`Err.noFuel`: artefact of the fuel-bounded embedding of an unbounded loop. -/
inductive Err where
  | keyError : Err
  | noFuel : Err
deriving DecidableEq

set_option maxRecDepth 40000

abbrev Domain := List Nat

abbrev Mapping := List Domain

/-- `cross(A, B)` from `solution.py`: the row/column pairs `a + b`, encoded
as `9 * a + b`. -/
def cross (A B : List Nat) : List Nat :=
  A.flatMap (fun a => B.map (fun b => 9 * a + b))

def rows : List Nat := [0, 1, 2, 3, 4, 5, 6, 7, 8]

def cols : List Nat := [0, 1, 2, 3, 4, 5, 6, 7, 8]

def boxes : List Nat := cross rows cols

def row_units : List (List Nat) := rows.map (fun r => cross [r] cols)

def column_units : List (List Nat) := cols.map (fun c => cross rows [c])

/-- The three row bands `'ABC', 'DEF', 'GHI'` (equally the column bands). -/
def bands : List (List Nat) := [[0, 1, 2], [3, 4, 5], [6, 7, 8]]

def square_units : List (List Nat) :=
  bands.flatMap (fun rs => bands.map (fun cs => cross rs cs))

/-- `[[a + b for a, b in z] for z in [zip(rows, cols), zip(rows, cols[::-1])]]`. -/
def diagonal_units : List (List Nat) :=
  [(rows.zip cols).map (fun p => 9 * p.1 + p.2),
   (rows.zip cols.reverse).map (fun p => 9 * p.1 + p.2)]

def unitlist : List (List Nat) :=
  row_units ++ column_units ++ square_units ++ diagonal_units

/-- `units[s]`: the units containing cell `s`. -/
def units (s : Nat) : List (List Nat) :=
  unitlist.filter (fun u => decide (s ∈ u))

/-- First-occurrence duplicate removal (the key/set order Python produces). -/
def dedupF : List Nat → List Nat → List Nat
  | _, [] => []
  | seen, a :: as =>
    if a ∈ seen then dedupF seen as else a :: dedupF (a :: seen) as

/-- `peers[s] = set(sum(units[s], [])) - set([s])`; the embedding keeps the
distinct elements in first-occurrence order (set iteration order is
irrelevant to every use, which is membership or an order-independent fold). -/
def peers (s : Nat) : List Nat :=
  dedupF [] (((units s).flatten).filter (fun t => decide (t ≠ s)))

/-- Python builds the `peers` dict once at module load, before any solving
starts; `peersTable` is that precomputed table (entry `s` holds `peers[s]`,
see `peersTable_def`), and the algorithms below look their peers up in it
exactly as the Python functions read the module-level `peers` dict. -/
def peersTable : List (List Nat) :=
  [
   [1,2,3,4,5,6,7,8,9,18,27,36,45,54,63,72,10,11,19,20,30,40,50,60,70,80],
   [0,2,3,4,5,6,7,8,10,19,28,37,46,55,64,73,9,11,18,20],
   [0,1,3,4,5,6,7,8,11,20,29,38,47,56,65,74,9,10,18,19],
   [0,1,2,4,5,6,7,8,12,21,30,39,48,57,66,75,13,14,22,23],
   [0,1,2,3,5,6,7,8,13,22,31,40,49,58,67,76,12,14,21,23],
   [0,1,2,3,4,6,7,8,14,23,32,41,50,59,68,77,12,13,21,22],
   [0,1,2,3,4,5,7,8,15,24,33,42,51,60,69,78,16,17,25,26],
   [0,1,2,3,4,5,6,8,16,25,34,43,52,61,70,79,15,17,24,26],
   [0,1,2,3,4,5,6,7,17,26,35,44,53,62,71,80,15,16,24,25,32,40,48,56,64,72],
   [10,11,12,13,14,15,16,17,0,18,27,36,45,54,63,72,1,2,19,20],
   [9,11,12,13,14,15,16,17,1,19,28,37,46,55,64,73,0,2,18,20,30,40,50,60,70,80],
   [9,10,12,13,14,15,16,17,2,20,29,38,47,56,65,74,0,1,18,19],
   [9,10,11,13,14,15,16,17,3,21,30,39,48,57,66,75,4,5,22,23],
   [9,10,11,12,14,15,16,17,4,22,31,40,49,58,67,76,3,5,21,23],
   [9,10,11,12,13,15,16,17,5,23,32,41,50,59,68,77,3,4,21,22],
   [9,10,11,12,13,14,16,17,6,24,33,42,51,60,69,78,7,8,25,26],
   [9,10,11,12,13,14,15,17,7,25,34,43,52,61,70,79,6,8,24,26,32,40,48,56,64,72],
   [9,10,11,12,13,14,15,16,8,26,35,44,53,62,71,80,6,7,24,25],
   [19,20,21,22,23,24,25,26,0,9,27,36,45,54,63,72,1,2,10,11],
   [18,20,21,22,23,24,25,26,1,10,28,37,46,55,64,73,0,2,9,11],
   [18,19,21,22,23,24,25,26,2,11,29,38,47,56,65,74,0,1,9,10,30,40,50,60,70,80],
   [18,19,20,22,23,24,25,26,3,12,30,39,48,57,66,75,4,5,13,14],
   [18,19,20,21,23,24,25,26,4,13,31,40,49,58,67,76,3,5,12,14],
   [18,19,20,21,22,24,25,26,5,14,32,41,50,59,68,77,3,4,12,13],
   [18,19,20,21,22,23,25,26,6,15,33,42,51,60,69,78,7,8,16,17,32,40,48,56,64,72],
   [18,19,20,21,22,23,24,26,7,16,34,43,52,61,70,79,6,8,15,17],
   [18,19,20,21,22,23,24,25,8,17,35,44,53,62,71,80,6,7,15,16],
   [28,29,30,31,32,33,34,35,0,9,18,36,45,54,63,72,37,38,46,47],
   [27,29,30,31,32,33,34,35,1,10,19,37,46,55,64,73,36,38,45,47],
   [27,28,30,31,32,33,34,35,2,11,20,38,47,56,65,74,36,37,45,46],
   [27,28,29,31,32,33,34,35,3,12,21,39,48,57,66,75,40,41,49,50,0,10,20,60,70,80],
   [27,28,29,30,32,33,34,35,4,13,22,40,49,58,67,76,39,41,48,50],
   [27,28,29,30,31,33,34,35,5,14,23,41,50,59,68,77,39,40,48,49,8,16,24,56,64,72],
   [27,28,29,30,31,32,34,35,6,15,24,42,51,60,69,78,43,44,52,53],
   [27,28,29,30,31,32,33,35,7,16,25,43,52,61,70,79,42,44,51,53],
   [27,28,29,30,31,32,33,34,8,17,26,44,53,62,71,80,42,43,51,52],
   [37,38,39,40,41,42,43,44,0,9,18,27,45,54,63,72,28,29,46,47],
   [36,38,39,40,41,42,43,44,1,10,19,28,46,55,64,73,27,29,45,47],
   [36,37,39,40,41,42,43,44,2,11,20,29,47,56,65,74,27,28,45,46],
   [36,37,38,40,41,42,43,44,3,12,21,30,48,57,66,75,31,32,49,50],
   [36,37,38,39,41,42,43,44,4,13,22,31,49,58,67,76,30,32,48,50,0,10,20,60,70,80,8,16,24,56,64,72],
   [36,37,38,39,40,42,43,44,5,14,23,32,50,59,68,77,30,31,48,49],
   [36,37,38,39,40,41,43,44,6,15,24,33,51,60,69,78,34,35,52,53],
   [36,37,38,39,40,41,42,44,7,16,25,34,52,61,70,79,33,35,51,53],
   [36,37,38,39,40,41,42,43,8,17,26,35,53,62,71,80,33,34,51,52],
   [46,47,48,49,50,51,52,53,0,9,18,27,36,54,63,72,28,29,37,38],
   [45,47,48,49,50,51,52,53,1,10,19,28,37,55,64,73,27,29,36,38],
   [45,46,48,49,50,51,52,53,2,11,20,29,38,56,65,74,27,28,36,37],
   [45,46,47,49,50,51,52,53,3,12,21,30,39,57,66,75,31,32,40,41,8,16,24,56,64,72],
   [45,46,47,48,50,51,52,53,4,13,22,31,40,58,67,76,30,32,39,41],
   [45,46,47,48,49,51,52,53,5,14,23,32,41,59,68,77,30,31,39,40,0,10,20,60,70,80],
   [45,46,47,48,49,50,52,53,6,15,24,33,42,60,69,78,34,35,43,44],
   [45,46,47,48,49,50,51,53,7,16,25,34,43,61,70,79,33,35,42,44],
   [45,46,47,48,49,50,51,52,8,17,26,35,44,62,71,80,33,34,42,43],
   [55,56,57,58,59,60,61,62,0,9,18,27,36,45,63,72,64,65,73,74],
   [54,56,57,58,59,60,61,62,1,10,19,28,37,46,64,73,63,65,72,74],
   [54,55,57,58,59,60,61,62,2,11,20,29,38,47,65,74,63,64,72,73,8,16,24,32,40,48],
   [54,55,56,58,59,60,61,62,3,12,21,30,39,48,66,75,67,68,76,77],
   [54,55,56,57,59,60,61,62,4,13,22,31,40,49,67,76,66,68,75,77],
   [54,55,56,57,58,60,61,62,5,14,23,32,41,50,68,77,66,67,75,76],
   [54,55,56,57,58,59,61,62,6,15,24,33,42,51,69,78,70,71,79,80,0,10,20,30,40,50],
   [54,55,56,57,58,59,60,62,7,16,25,34,43,52,70,79,69,71,78,80],
   [54,55,56,57,58,59,60,61,8,17,26,35,44,53,71,80,69,70,78,79],
   [64,65,66,67,68,69,70,71,0,9,18,27,36,45,54,72,55,56,73,74],
   [63,65,66,67,68,69,70,71,1,10,19,28,37,46,55,73,54,56,72,74,8,16,24,32,40,48],
   [63,64,66,67,68,69,70,71,2,11,20,29,38,47,56,74,54,55,72,73],
   [63,64,65,67,68,69,70,71,3,12,21,30,39,48,57,75,58,59,76,77],
   [63,64,65,66,68,69,70,71,4,13,22,31,40,49,58,76,57,59,75,77],
   [63,64,65,66,67,69,70,71,5,14,23,32,41,50,59,77,57,58,75,76],
   [63,64,65,66,67,68,70,71,6,15,24,33,42,51,60,78,61,62,79,80],
   [63,64,65,66,67,68,69,71,7,16,25,34,43,52,61,79,60,62,78,80,0,10,20,30,40,50],
   [63,64,65,66,67,68,69,70,8,17,26,35,44,53,62,80,60,61,78,79],
   [73,74,75,76,77,78,79,80,0,9,18,27,36,45,54,63,55,56,64,65,8,16,24,32,40,48],
   [72,74,75,76,77,78,79,80,1,10,19,28,37,46,55,64,54,56,63,65],
   [72,73,75,76,77,78,79,80,2,11,20,29,38,47,56,65,54,55,63,64],
   [72,73,74,76,77,78,79,80,3,12,21,30,39,48,57,66,58,59,67,68],
   [72,73,74,75,77,78,79,80,4,13,22,31,40,49,58,67,57,59,66,68],
   [72,73,74,75,76,78,79,80,5,14,23,32,41,50,59,68,57,58,66,67],
   [72,73,74,75,76,77,79,80,6,15,24,33,42,51,60,69,61,62,70,71],
   [72,73,74,75,76,77,78,80,7,16,25,34,43,52,61,70,60,62,69,71],
   [72,73,74,75,76,77,78,79,8,17,26,35,44,53,62,71,60,61,69,70,0,10,20,30,40,50]
  ]

def peersOf (s : Nat) : List Nat := peersTable.getD s []

def digits : List Nat := [1, 2, 3, 4, 5, 6, 7, 8, 9]

/-- Number of boxes whose domain has exactly one candidate
(`len([box for box, choices in values.items() if len(choices) == 1])`). -/
def solvedCount (values : Mapping) : Nat :=
  values.countP (fun d => decide (d.length = 1))

/-- Number of boxes with an empty domain. -/
def emptyCount (values : Mapping) : Nat :=
  values.countP (fun d => decide (d.length = 0))

/-- `values[box]` on a Python dict: `KeyError` when the key is absent
(the empty failure dict `{}` has no keys at all). -/
def dictGet (values : Mapping) (box : Nat) : Except Err Domain :=
  if box < values.length then .ok (values.getD box []) else .error .keyError

/-- One step of the `for box, choices in grid.items()` loop of `eliminate`:
if the (current) domain of `box` is a single digit, that digit is removed
from every peer of `box` (Python `grid[peer].replace(choices, '')`, routed
through `assign_value`, whose trace side effect lives in the heap model). -/
def removeFromPeer (choices : Domain) (g : Mapping) (p : Nat) : Mapping :=
  g.set p ((g.getD p []).filter (fun d => decide (d ∉ choices)))

def elimStep (grid : Mapping) (box : Nat) : Mapping :=
  let choices := grid.getD box []
  if choices.length = 1 then
    (peersOf box).foldl (removeFromPeer choices) grid
  else grid

/-- `eliminate(values)`: `grid = values.copy()`, then the box loop over the
81 keys in insertion order (the dict view sees earlier mutations). -/
def eliminate (values : Mapping) : Mapping :=
  (List.range values.length).foldl elimStep values

/-- `[box for box in unit if digit in values[box]]`, with the `KeyError`
of `values[box]` made explicit. -/
def boxesWith (values : Mapping) (digit : Nat) : List Nat → Except Err (List Nat)
  | [] => .ok []
  | b :: bs =>
    match dictGet values b with
    | .error e => .error e
    | .ok d =>
      match boxesWith values digit bs with
      | .error e => .error e
      | .ok rest => .ok (if digit ∈ d then b :: rest else rest)

/-- One unit/digit step of `only_choice`: membership is tested in the
original `values`, the assignment goes into `result`. -/
def ocStep (values : Mapping) (result : Mapping) (unit : List Nat)
    (digit : Nat) : Except Err Mapping :=
  match boxesWith values digit unit with
  | .error e => .error e
  | .ok bwd =>
    .ok (match bwd with
         | [b] => result.set b [digit]
         | _ => result)

/-- `only_choice(values)`: `result = values.copy()`, then for every unit and
every digit `'1'..'9'`, if exactly one box of the unit still admits the
digit it is assigned there (via `assign_value`; trace in the heap model). -/
def onlyChoice (values : Mapping) : Except Err Mapping :=
  unitlist.foldlM
    (fun result unit =>
      digits.foldlM (fun result digit => ocStep values result unit digit) result)
    values

/-- `reduce_puzzle(values)` with explicit fuel for the `while not stalled`
loop.  Each iteration: count the solved boxes, run `eliminate` then
`only_choice`, return the empty dict on any emptied domain, stop when the
solved count did not grow, otherwise loop. -/
def reducePuzzle : Nat → Mapping → Except Err Mapping
  | 0, _ => .error .noFuel
  | fuel + 1, values =>
    let before := solvedCount values
    match onlyChoice (eliminate values) with
    | .error e => .error e
    | .ok v₂ =>
      if emptyCount v₂ ≠ 0 then .ok []
      else if solvedCount v₂ = before then .ok v₂
      else reducePuzzle fuel v₂

/-- The `for digit in values[square_fewest]` loop of `search`: assign the
digit (mutating this frame's own copy), recurse (`prev`), return the first
truthy (non-empty) solution, else fall through to `return {}`. -/
def searchDigits (prev : Mapping → Except Err Mapping) (sq : Nat) :
    Mapping → List Nat → Except Err Mapping
  | _, [] => .ok []
  | vals, d :: ds =>
    let vals' := vals.set sq [d]
    match prev vals' with
    | .error e => .error e
    | .ok sol => if sol.isEmpty then searchDigits prev sq vals' ds else .ok sol

/-- `search(values)` with recursion fuel: copy, `reduce_puzzle` (fuel `82`
suffices for every 81-entry mapping, see `reducePuzzle_fuel_irrelevant`),
return `{}` if reduction failed, return the mapping if no box is unsolved,
else branch on the first unsolved box of minimal domain size
(`min(squares_not_solved, key=num_choices)` keeps the first minimum of the
insertion order). -/
def search : Nat → Mapping → Except Err Mapping
  | 0, _ => .error .noFuel
  | fuel + 1, values =>
    match reducePuzzle 82 values with
    | .error e => .error e
    | .ok v =>
      if v.isEmpty then .ok []
      else
        match (List.range v.length).filter (fun i => decide (1 < (v.getD i []).length)) with
        | [] => .ok v
        | b :: bs =>
          let fewest := bs.foldl
            (fun best i =>
              if (v.getD i []).length < (v.getD best []).length then i else best) b
          searchDigits (fun m => search fuel m) fewest v (v.getD fewest [])

/-- `grid_values(grid)`: the input character `'.'` is encoded as `0`, a given
digit as itself; `zip(boxes, grid)` builds the dict in box order. -/
def grid_values (grid : List Nat) : Mapping :=
  (boxes.zip grid).map (fun p => if p.2 ≠ 0 then [p.2] else digits)

/-- `solve(grid) = search(reduce_puzzle(grid_values(grid)))`.  The fuel `82`
for `reduce_puzzle` is exact for 81-entry mappings; the search fuel `82`
bounds the recursion depth, which fixes at least one new box per level. -/
def solve (grid : List Nat) : Except Err Mapping :=
  match reducePuzzle 82 (grid_values grid) with
  | .error e => .error e
  | .ok g => search 82 g

/-- `''.join(sorted(choices))`: the canonical (sorted) form of a domain,
duplicates preserved. -/
def canonicalize (choices : List Nat) : List Nat :=
  List.insertionSort (fun a b => a ≤ b) choices

/-- `''.join(sorted(set(values[peer]) - set(choices)))`: distinct survivors
of the twin-digit removal, sorted. -/
def canonicalizeSet (choicesLeft : List Nat) : List Nat :=
  canonicalize (dedupF [] choicesLeft)

/-- The keys of `choices_to_boxes` for one unit, in dict insertion order:
the distinct canonical two-candidate domains, ordered by first box. -/
def twinKeys (values : Mapping) : List Nat → List (List Nat)
  | [] => []
  | b :: bs =>
    let key := canonicalize (values.getD b [])
    if key.length = 2 then
      key :: (twinKeys values bs).filter (fun k => decide (k ≠ key))
    else twinKeys values bs

/-- The group of `choices_to_boxes[key]`: every box of the unit whose
canonical domain is `key` (a set of distinct boxes; units have no
duplicates, so the sublist order stands in for the set). -/
def groupBoxes (values : Mapping) (unit : List Nat) (key : List Nat) : List Nat :=
  unit.filter (fun b => decide (canonicalize (values.getD b []) = key))

/-- `choices_to_boxes.items()` in insertion order. -/
def groupsOf (values : Mapping) (unit : List Nat) : List (List Nat × List Nat) :=
  (twinKeys values unit).map (fun k => (k, groupBoxes values unit k))

/-- The `for peer in peers_in_unit` loop of `naked_twins` for one twin group:
remove the twin digits from the peer; `None` models the short-circuiting
`return {}` on an emptied domain. -/
def processPeers (key : List Nat) : Mapping → List Nat → Option Mapping
  | values, [] => some values
  | values, p :: ps =>
    let newChoices := canonicalizeSet ((values.getD p []).filter (fun d => decide (d ∉ key)))
    if newChoices = [] then none
    else processPeers key (values.set p newChoices) ps

/-- The `for choices, boxes in choices_to_boxes.items()` loop: skip the
groups of fewer than two boxes, `return {}` (`None`) for three or more, and
eliminate the pair from the non-twin members of the unit otherwise. -/
def processGroups (unit : List Nat) : Mapping → List (List Nat × List Nat) → Option Mapping
  | values, [] => some values
  | values, (key, bxs) :: rest =>
    if bxs.length < 2 then processGroups unit values rest
    else if bxs.length > 2 then none
    else
      match processPeers key values (unit.filter (fun b => decide (b ∉ bxs))) with
      | none => none
      | some v' => processGroups unit v' rest

/-- The domain reads `values[box]` performed while building
`choices_to_boxes` (the first failing read raises). -/
def domsOf (values : Mapping) : List Nat → Except Err (List Domain)
  | [] => .ok []
  | b :: bs =>
    match dictGet values b with
    | .error e => .error e
    | .ok d =>
      match domsOf values bs with
      | .error e => .error e
      | .ok rest => .ok (d :: rest)

/-- One unit of the `for unit in unitlist` loop of `naked_twins`: build the
`choices_to_boxes` groups (raising `KeyError` exactly where Python reads
`values[box]`), then run the group loop; `.ok none` is `return {}`. -/
def processUnit (values : Mapping) (unit : List Nat) : Except Err (Option Mapping) :=
  match domsOf values unit with
  | .error e => .error e
  | .ok _ => .ok (processGroups unit values (groupsOf values unit))

/-- The unit loop of `naked_twins`; `.ok []` is the short-circuited
`return {}` (the remaining units are never looked at). -/
def nakedTwinsGo : Mapping → List (List Nat) → Except Err Mapping
  | values, [] => .ok values
  | values, unit :: rest =>
    match processUnit values unit with
    | .error e => .error e
    | .ok none => .ok []
    | .ok (some v') => nakedTwinsGo v' rest

/-- `naked_twins(values)`: copy, then process every unit in `unitlist`. -/
def naked_twins (values : Mapping) : Except Err Mapping :=
  nakedTwinsGo values unitlist

/-! ### Generic list facts used throughout -/

theorem foldl_invariant {α β : Type} (P : β → Prop) (step : β → α → β) :
    ∀ (l : List α) (init : β), P init → (∀ b a, a ∈ l → P b → P (step b a)) →
      P (l.foldl step init)
  | [], _, h, _ => h
  | a :: as, init, h, hstep =>
    foldl_invariant P step as (step init a) (hstep init a (.head as) h)
      (fun b x hx hb => hstep b x (.tail a hx) hb)

theorem foldlM_except_invariant {α β : Type} (P : β → Prop)
    (step : β → α → Except Err β) :
    ∀ (l : List α) (init : β) (out : β),
      (∀ b a r, a ∈ l → step b a = .ok r → P b → P r) → P init →
      l.foldlM step init = .ok out → P out := by
  intro l
  induction l with
  | nil => intro init out _ h hrun; cases hrun; exact h
  | cons a as ih =>
    intro init out hstep h hrun
    simp only [List.foldlM_cons] at hrun
    cases hst : step init a with
    | error e => rw [hst] at hrun; cases hrun
    | ok mid =>
      rw [hst] at hrun
      exact ih mid out (fun b x r hx => hstep b x r (.tail a hx))
        (hstep init a mid (.head as) hst h) hrun

theorem getD_set_self {α : Type} {l : List α} {i : Nat} {a d : α}
    (h : i < l.length) : (l.set i a).getD i d = a := by
  simp [List.getD_eq_getElem?_getD, List.getElem?_set_self h]

theorem getD_set_ne {α : Type} {l : List α} {i j : Nat} {a d : α}
    (h : i ≠ j) : (l.set i a).getD j d = l.getD j d := by
  simp [List.getD_eq_getElem?_getD, List.getElem?_set_ne h]

theorem set_getD_self {α : Type} {l : List α} {i : Nat} {d : α} :
    l.set i (l.getD i d) = l := by
  rcases Nat.lt_or_ge i l.length with h | h
  · apply List.ext_getElem?
    intro j
    rcases eq_or_ne i j with rfl | hne
    · simp [List.getElem?_set_self h, List.getD_eq_getElem?_getD,
        List.getElem?_eq_getElem h]
    · simp [List.getElem?_set_ne hne]
  · exact List.set_eq_of_length_le h

theorem getD_mem {α : Type} {l : List α} {i : Nat} {d : α}
    (h : i < l.length) : l.getD i d ∈ l := by
  rw [List.getD_eq_getElem?_getD, List.getElem?_eq_getElem h]
  exact List.getElem_mem h

theorem mem_iff_getD {α : Type} {l : List α} {x : α} (d : α) :
    x ∈ l ↔ ∃ i, i < l.length ∧ l.getD i d = x := by
  constructor
  · intro hx
    rcases List.getElem_of_mem hx with ⟨i, hi, he⟩
    exact ⟨i, hi, by rw [List.getD_eq_getElem?_getD, List.getElem?_eq_getElem hi]; exact he⟩
  · rintro ⟨i, hi, rfl⟩
    exact getD_mem hi

/-- Pointwise comparison of `countP` over two lists of equal length. -/
theorem countP_le_of_pointwise {α : Type} (p : α → Bool) :
    ∀ (l₁ l₂ : List α), l₁.length = l₂.length →
      (∀ i, i < l₁.length → ∀ d, p (l₁.getD i d) → p (l₂.getD i d)) →
      l₁.countP p ≤ l₂.countP p
  | [], [], _, _ => le_refl _
  | [], b :: l₂, h, _ => by cases h
  | a :: l₁, [], h, _ => by cases h
  | a :: l₁, b :: l₂, h, hpt => by
    have hab : p a → p b := by
      intro ha
      have := hpt 0 (by simp) a
      simpa using this (by simpa using ha)
    have htail : l₁.countP p ≤ l₂.countP p := by
      apply countP_le_of_pointwise p l₁ l₂ (by simpa using h)
      intro i hi d hp
      have := hpt (i + 1) (by simpa using Nat.succ_lt_succ hi) d
      simpa using this (by simpa using hp)
    by_cases ha : p a
    · rw [List.countP_cons_of_pos p _ ha, List.countP_cons_of_pos p _ (hab ha)]
      omega
    · rw [List.countP_cons_of_neg p _ ha]
      have : l₂.countP p ≤ (b :: l₂).countP p := by
        rcases Bool.eq_false_or_eq_true (p b) with hb | hb
        · simp [List.countP_cons_of_pos p _ hb]
        · simp [List.countP_cons_of_neg p l₂ (show ¬ p b = true by simp [hb])]
      omega

/-- With equal counts, a pointwise implication between `countP` predicates is
an equivalence at every index. -/
theorem countP_pointwise_iff {α : Type} (p : α → Bool) :
    ∀ (l₁ l₂ : List α), l₁.length = l₂.length →
      (∀ i, i < l₁.length → ∀ d, p (l₁.getD i d) → p (l₂.getD i d)) →
      l₁.countP p = l₂.countP p →
      ∀ i, i < l₁.length → ∀ d, p (l₂.getD i d) → p (l₁.getD i d)
  | [], _, _, _, _ => by intro i hi; cases hi
  | a :: l₁, [], h, _, _ => by cases h
  | a :: l₁, b :: l₂, h, hpt, hcnt => by
    have hlen : l₁.length = l₂.length := by simpa using h
    have hab : p a → p b := by
      intro ha
      have := hpt 0 (by simp) a
      simpa using this (by simpa using ha)
    have htailpt : ∀ i, i < l₁.length → ∀ d, p (l₁.getD i d) → p (l₂.getD i d) := by
      intro i hi d hp
      have := hpt (i + 1) (by simpa using Nat.succ_lt_succ hi) d
      simpa using this (by simpa using hp)
    have htail_le : l₁.countP p ≤ l₂.countP p :=
      countP_le_of_pointwise p l₁ l₂ hlen htailpt
    have hheads : (p b → p a) ∧ l₁.countP p = l₂.countP p := by
      by_cases ha : p a
      · rw [List.countP_cons_of_pos p _ ha, List.countP_cons_of_pos p _ (hab ha)] at hcnt
        exact ⟨fun _ => ha, by omega⟩
      · rw [List.countP_cons_of_neg p _ ha] at hcnt
        rcases Bool.eq_false_or_eq_true (p b) with hb | hb
        · rw [List.countP_cons_of_pos p _ hb] at hcnt
          omega
        · rw [List.countP_cons_of_neg p l₂ (show ¬ p b = true by simp [hb])] at hcnt
          exact ⟨fun hpb => absurd hb (by simp [hpb]), hcnt⟩
    intro i hi d hp
    match i with
    | 0 => exact hheads.1 (by simpa using hp)
    | j + 1 =>
      have hj : j < l₁.length := by simpa using hi
      exact countP_pointwise_iff p l₁ l₂ hlen htailpt hheads.2 j hj d (by simpa using hp)

/-! ### Topology facts -/

theorem mem_dedupF {x : Nat} :
    ∀ (l seen : List Nat), x ∈ dedupF seen l ↔ x ∈ l ∧ x ∉ seen
  | [], seen => by simp [dedupF]
  | a :: as, seen => by
    by_cases ha : a ∈ seen
    · rw [dedupF, if_pos ha, mem_dedupF as seen]
      constructor
      · rintro ⟨h₁, h₂⟩
        exact ⟨.tail a h₁, h₂⟩
      · rintro ⟨h₁, h₂⟩
        cases h₁ with
        | head => exact absurd ha h₂
        | tail _ h => exact ⟨h, h₂⟩
    · rw [dedupF, if_neg ha]
      constructor
      · intro h
        cases h with
        | head => exact ⟨.head as, ha⟩
        | tail _ h =>
          rcases (mem_dedupF as (a :: seen)).1 h with ⟨h₁, h₂⟩
          exact ⟨.tail a h₁, fun hx => h₂ (.tail a hx)⟩
      · rintro ⟨h₁, h₂⟩
        cases h₁ with
        | head => exact .head _
        | tail _ h =>
          by_cases hxa : x = a
          · exact hxa ▸ .head _
          · exact .tail a ((mem_dedupF as (a :: seen)).2
              ⟨h, fun hx => (by cases hx with
                             | head => exact hxa rfl
                             | tail _ hh => exact h₂ hh)⟩)

theorem mem_units {s : Nat} {u : List Nat} :
    u ∈ units s ↔ u ∈ unitlist ∧ s ∈ u := by
  simp [units, List.mem_filter]

/-- Membership characterisation of the derived `peers` set: `b` is a peer of
`a` exactly when some unit contains both and they differ. -/
theorem mem_peers {a b : Nat} :
    b ∈ peers a ↔ (∃ u ∈ unitlist, a ∈ u ∧ b ∈ u) ∧ b ≠ a := by
  rw [peers, mem_dedupF]
  simp only [List.not_mem_nil, and_true, List.mem_filter, List.mem_flatten,
    decide_eq_true_eq, mem_units, not_false_iff]
  tauto

theorem unit_facts : ∀ u ∈ unitlist, u.length = 9 ∧ u.Nodup ∧ ∀ b ∈ u, b < 81 := by
  decide

theorem peersTable_def : peersTable = boxes.map peers := by decide!

theorem boxes_eq_range : boxes = List.range 81 := by decide

theorem peersOf_eq {s : Nat} (h : s < 81) : peersOf s = peers s := by
  rw [peersOf, peersTable_def, boxes_eq_range, List.getD_eq_getElem?_getD,
    List.getElem?_map, List.getElem?_range h]
  rfl

/-- Two distinct cells of one unit are peers of each other. -/
theorem peers_of_same_unit {u : List Nat} (hu : u ∈ unitlist) {a b : Nat}
    (ha : a ∈ u) (hb : b ∈ u) (hne : b ≠ a) : b ∈ peers a :=
  mem_peers.2 ⟨⟨u, hu, ha, hb⟩, hne⟩

theorem mem_peersOf {a b : Nat} (ha : a < 81) :
    b ∈ peersOf a ↔ (∃ u ∈ unitlist, a ∈ u ∧ b ∈ u) ∧ b ≠ a := by
  rw [peersOf_eq ha, mem_peers]

theorem peersOf_lt {a b : Nat} (ha : a < 81) (hb : b ∈ peersOf a) : b < 81 := by
  rcases (mem_peersOf ha).1 hb with ⟨⟨u, hu, _, hbu⟩, _⟩
  exact (unit_facts u hu).2.2 b hbu

theorem peersOf_ne {a b : Nat} (ha : a < 81) (hb : b ∈ peersOf a) : b ≠ a :=
  ((mem_peersOf ha).1 hb).2

/-! ### Claims C4 and C8: topology -/

/-- C4 (corrected): the fixed unit list does comprise the 9 row units, 9
column units, 9 box units and 2 diagonal units, each being 9 distinct cell
identifiers of the board, but that makes 29 units in total, not 21. -/
theorem claim_C4 :
    unitlist.length = 29 ∧ row_units.length = 9 ∧ column_units.length = 9 ∧
    square_units.length = 9 ∧ diagonal_units.length = 2 ∧
    unitlist = row_units ++ column_units ++ square_units ++ diagonal_units ∧
    (∀ u ∈ unitlist, u.length = 9 ∧ u.Nodup ∧ ∀ b ∈ u, b ∈ boxes) := by
  decide

/-- C4, counterexample to the claim as stated: the unit list does not have
21 elements. -/
theorem claim_C4_counterexample : ¬ unitlist.length = 21 := by decide

theorem claim_C4_witness :
    (cross [0] cols) ∈ unitlist ∧ (cross [0] cols).length = 9 :=
  ⟨by decide, (claim_C4.2.2.2.2.2.2 (cross [0] cols) (by decide)).1⟩

/-- C8 (confirmed): the derived peers relation is symmetric on the cells of
the board. -/
theorem claim_C8 : ∀ a b : Nat, a ∈ boxes → b ∈ boxes →
    (b ∈ peers a ↔ a ∈ peers b) := by
  intro a b _ _
  rw [mem_peers, mem_peers]
  constructor
  · rintro ⟨⟨u, hu, ha, hb⟩, hne⟩
    exact ⟨⟨u, hu, hb, ha⟩, fun h => hne h.symm⟩
  · rintro ⟨⟨u, hu, hb, ha⟩, hne⟩
    exact ⟨⟨u, hu, ha, hb⟩, fun h => hne h.symm⟩

theorem claim_C8_witness :
    0 ∈ boxes ∧ 1 ∈ boxes ∧ (1 ∈ peers 0 ↔ 0 ∈ peers 1) :=
  ⟨by decide, by decide, claim_C8 0 1 (by decide) (by decide)⟩

/-! ### Claim C2: contradictory givens crash `solve` -/

instance instDecEqExceptErr {α : Type} [DecidableEq α] : DecidableEq (Except Err α) := fun a b =>
  match a, b with
  | .ok x, .ok y =>
    if h : x = y then isTrue (by rw [h]) else isFalse (fun hh => h (Except.ok.inj hh))
  | .error x, .error y =>
    if h : x = y then isTrue (by rw [h]) else isFalse (fun hh => h (Except.error.inj hh))
  | .ok _, .error _ => isFalse (fun hh => Except.noConfusion hh)
  | .error _, .ok _ => isFalse (fun hh => Except.noConfusion hh)

/-- The 81-character input whose first two cells of row A both carry the
given `'5'`, all other cells unknown. -/
def two5sGrid : List Nat := 5 :: 5 :: List.replicate 79 0

/-- C2 (code bug): on a contradictory input the top-level `reduce_puzzle`
returns the failure dict `{}`, but `solve` then feeds `{}` to `search`,
whose inner `reduce_puzzle` call reaches `only_choice({})`, and the very
first domain lookup `values[box]` raises an uncaught `KeyError`: `solve`
crashes instead of returning the failure value.  The crash does not depend
on the search fuel: already at recursion depth one, `search` on `{}`
raises. -/
theorem claim_C2_bug :
    reducePuzzle 82 (grid_values two5sGrid) = .ok [] ∧
    solve two5sGrid = .error .keyError ∧
    search 1 ([] : Mapping) = .error .keyError := by
  refine ⟨by decide!, by decide!, by decide!⟩

/-! ### `eliminate` lemmas -/

theorem foldl_id {α β : Type} {f : β → α → β} {g : β} :
    ∀ {ps : List α}, (∀ p ∈ ps, f g p = g) → ps.foldl f g = g
  | [], _ => rfl
  | p :: ps, h => by
    have h₀ : f g p = g := h p (.head ps)
    rw [List.foldl_cons, h₀]
    exact foldl_id (fun q hq => h q (.tail p hq))

theorem length_removeFromPeer {choices : Domain} {g : Mapping} {p : Nat} :
    (removeFromPeer choices g p).length = g.length := by
  simp [removeFromPeer]

theorem getD_removeFromPeer_sublist {choices : Domain} {g : Mapping} {p i : Nat} :
    List.Sublist ((removeFromPeer choices g p).getD i []) (g.getD i []) := by
  rw [removeFromPeer]
  rcases eq_or_ne i p with rfl | hne
  · rcases Nat.lt_or_ge i g.length with h | h
    · rw [getD_set_self h]
      exact List.filter_sublist _
    · rw [List.set_eq_of_length_le h]
  · rw [getD_set_ne (fun hh => hne hh.symm)]

theorem length_removeFold {choices : Domain} {ps : List Nat} :
    ∀ {g : Mapping}, (ps.foldl (removeFromPeer choices) g).length = g.length := by
  induction ps with
  | nil => intro g; rfl
  | cons p ps ih =>
    intro g
    rw [List.foldl_cons, ih, length_removeFromPeer]

theorem getD_removeFold_sublist {choices : Domain} {ps : List Nat} :
    ∀ {g : Mapping} {i : Nat},
      List.Sublist ((ps.foldl (removeFromPeer choices) g).getD i []) (g.getD i []) := by
  induction ps with
  | nil => intro g i; exact List.Sublist.refl _
  | cons p ps ih =>
    intro g i
    rw [List.foldl_cons]
    exact ih.trans getD_removeFromPeer_sublist

theorem removeFold_not_mem {choices : Domain} {c : Nat} (hc : c ∈ choices)
    {ps : List Nat} : ∀ {g : Mapping}, ∀ p ∈ ps,
      c ∉ (ps.foldl (removeFromPeer choices) g).getD p [] := by
  induction ps with
  | nil => intro g p hp; cases hp
  | cons q ps ih =>
    intro g p hp
    rw [List.foldl_cons]
    cases hp with
    | tail _ hmem => exact ih p hmem
    | head =>
      have h1 : c ∉ (removeFromPeer choices g q).getD q [] := by
        rw [removeFromPeer]
        rcases Nat.lt_or_ge q g.length with h | h
        · rw [getD_set_self h]
          intro hmem
          rcases List.mem_filter.1 hmem with ⟨_, hdec⟩
          rw [decide_eq_true_eq] at hdec
          exact hdec hc
        · rw [List.set_eq_of_length_le h, List.getD_eq_getElem?_getD,
            List.getElem?_eq_none (by simpa using h)]
          simp
      intro hmem
      exact h1 (getD_removeFold_sublist.subset hmem)

theorem length_elimStep {g : Mapping} {b : Nat} : (elimStep g b).length = g.length := by
  rw [elimStep]
  split
  · exact length_removeFold
  · rfl

theorem getD_elimStep_sublist {g : Mapping} {b i : Nat} :
    List.Sublist ((elimStep g b).getD i []) (g.getD i []) := by
  rw [elimStep]
  split
  · exact getD_removeFold_sublist
  · exact List.Sublist.refl _

theorem length_elimFold {l : List Nat} :
    ∀ {g : Mapping}, (l.foldl elimStep g).length = g.length := by
  induction l with
  | nil => intro g; rfl
  | cons b l ih =>
    intro g
    rw [List.foldl_cons, ih, length_elimStep]

theorem getD_elimFold_sublist {l : List Nat} :
    ∀ {g : Mapping} {i : Nat},
      List.Sublist ((l.foldl elimStep g).getD i []) (g.getD i []) := by
  induction l with
  | nil => intro g i; exact List.Sublist.refl _
  | cons b l ih =>
    intro g i
    rw [List.foldl_cons]
    exact ih.trans getD_elimStep_sublist

theorem length_eliminate {v : Mapping} : (eliminate v).length = v.length := by
  rw [eliminate]; exact length_elimFold

theorem getD_eliminate_sublist {v : Mapping} {i : Nat} :
    List.Sublist ((eliminate v).getD i []) (v.getD i []) := by
  rw [eliminate]; exact getD_elimFold_sublist

/-- A cell that is fixed to `[c]` before `eliminate`'s pass and still fixed
to `[c]` after it had `c` removed from all of its peers during the pass. -/
theorem elimFold_fixed_not_mem_peers {c : Nat} {l : List Nat} :
    ∀ {g : Mapping} {i : Nat}, i ∈ l → g.getD i [] = [c] →
      (l.foldl elimStep g).getD i [] = [c] →
      ∀ p ∈ peersOf i, c ∉ (l.foldl elimStep g).getD p [] := by
  induction l with
  | nil => intro g i hi; cases hi
  | cons j l ih =>
    intro g i hi hg hfin p hp
    rw [List.foldl_cons] at hfin ⊢
    rcases eq_or_ne i j with rfl | hne
    · -- the box `i` is processed now, with `choices = [c]`
      have hchoices : (elimStep g i) = (peersOf i).foldl (removeFromPeer [c]) g := by
        rw [elimStep, hg]
        simp
      rw [hchoices] at hfin ⊢
      have h₁ : c ∉ ((peersOf i).foldl (removeFromPeer [c]) g).getD p [] :=
        removeFold_not_mem (List.mem_singleton_self c) p hp
      intro hmem
      exact h₁ (getD_elimFold_sublist.subset hmem)
    · -- another box is processed first; `i`'s domain must survive it intact
      have hsub : List.Sublist ((elimStep g j).getD i []) [c] := hg ▸ getD_elimStep_sublist
      have hi' : (elimStep g j).getD i [] = [c] := by
        cases List.sublist_singleton.1 hsub with
        | inl hnil =>
          exfalso
          have hzz : List.Sublist ((l.foldl elimStep (elimStep g j)).getD i [])
              ((elimStep g j).getD i []) := getD_elimFold_sublist
          rw [hnil, List.sublist_nil] at hzz
          rw [hfin] at hzz
          cases hzz
        | inr h => exact h
      have him : i ∈ l := by
        cases hi with
        | head => exact absurd rfl hne
        | tail _ h => exact h
      exact ih him hi' hfin p hp

/-- If no fixed digit still occurs in a peer's domain, `eliminate`'s pass is
a no-op. -/
theorem elimFold_eq_self {g : Mapping}
    (h : ∀ i c, g.getD i [] = [c] → ∀ p ∈ peersOf i, c ∉ g.getD p []) :
    ∀ (l : List Nat), l.foldl elimStep g = g := by
  have hstep : ∀ b, elimStep g b = g := by
    intro b
    rw [elimStep]
    split
    · next hlen =>
      rcases List.length_eq_one.1 hlen with ⟨c, hc⟩
      apply foldl_id
      intro p hp
      rw [removeFromPeer]
      have hfix : (g.getD p []).filter (fun d => decide (d ∉ g.getD b [])) = g.getD p [] := by
        apply List.filter_eq_self.2
        intro a ha
        rw [decide_eq_true_eq, hc]
        intro hmem
        rcases List.mem_singleton.1 hmem with rfl
        exact (h b a hc p hp) ha
      rw [hfix, set_getD_self]
    · rfl
  intro l
  induction l with
  | nil => rfl
  | cons b l ih =>
    rw [List.foldl_cons, hstep b, ih]

theorem eliminate_eq_self {g : Mapping}
    (h : ∀ i c, g.getD i [] = [c] → ∀ p ∈ peersOf i, c ∉ g.getD p []) :
    eliminate g = g := by
  rw [eliminate]; exact elimFold_eq_self h _

/-! ### `only_choice` lemmas -/

theorem foldlM_except_ok {α β : Type} {step : β → α → Except Err β} :
    ∀ {l : List α} {init : β}, (∀ b a, a ∈ l → ∃ r, step b a = .ok r) →
      ∃ out, l.foldlM step init = .ok out := by
  intro l
  induction l with
  | nil => intro init _; exact ⟨init, rfl⟩
  | cons a as ih =>
    intro init h
    rcases h init a (.head as) with ⟨mid, hmid⟩
    rcases @ih mid (fun b x hx => h b x (.tail a hx)) with ⟨out, hout⟩
    exact ⟨out, by simpa [List.foldlM_cons, hmid] using hout⟩

theorem boxesWith_ok {values : Mapping} {digit : Nat} :
    ∀ {unit : List Nat}, (∀ b ∈ unit, b < values.length) →
      ∃ l, boxesWith values digit unit = .ok l := by
  intro unit
  induction unit with
  | nil => intro _; exact ⟨[], rfl⟩
  | cons b bs ih =>
    intro h
    rcases ih (fun x hx => h x (.tail b hx)) with ⟨l, hl⟩
    refine ⟨if digit ∈ values.getD b [] then b :: l else l, ?_⟩
    rw [boxesWith, dictGet, if_pos (h b (.head bs)), hl]

theorem boxesWith_mem {values : Mapping} {digit : Nat} :
    ∀ {unit : List Nat} {l : List Nat}, boxesWith values digit unit = .ok l →
      ∀ b ∈ l, b ∈ unit ∧ digit ∈ values.getD b [] := by
  intro unit
  induction unit with
  | nil =>
    intro l hl b hb
    rw [boxesWith] at hl
    cases hl
    cases hb
  | cons x bs ih =>
    intro l hl b hb
    rw [boxesWith] at hl
    cases hget : dictGet values x with
    | error e => rw [hget] at hl; cases hl
    | ok dom =>
      rw [hget] at hl
      cases hrest : boxesWith values digit bs with
      | error e => rw [hrest] at hl; cases hl
      | ok rest =>
        rw [hrest] at hl
        have hdom : dom = values.getD x [] := by
          rw [dictGet] at hget
          split at hget
          · exact (Except.ok.inj hget).symm
          · cases hget
        cases hl
        by_cases hmem : digit ∈ dom
        · rw [if_pos hmem] at hb
          cases hb with
          | head => exact ⟨.head bs, hdom ▸ hmem⟩
          | tail _ hbr =>
            rcases ih hrest b hbr with ⟨h₁, h₂⟩
            exact ⟨.tail x h₁, h₂⟩
        · rw [if_neg hmem] at hb
          rcases ih hrest b hb with ⟨h₁, h₂⟩
          exact ⟨.tail x h₁, h₂⟩

theorem ocStep_cases {values result : Mapping} {unit : List Nat} {digit : Nat}
    {r' : Mapping} (h : ocStep values result unit digit = .ok r') :
    r' = result ∨ ∃ b, b ∈ unit ∧ digit ∈ values.getD b [] ∧ r' = result.set b [digit] := by
  rw [ocStep] at h
  cases hbw : boxesWith values digit unit with
  | error e => rw [hbw] at h; cases h
  | ok bwd =>
    rw [hbw] at h
    match bwd, h with
    | [], hh => exact .inl (Except.ok.inj hh).symm
    | [b], hh =>
      rcases boxesWith_mem hbw b (.head _) with ⟨h₁, h₂⟩
      exact .inr ⟨b, h₁, h₂, (Except.ok.inj hh).symm⟩
    | b₁ :: b₂ :: bs, hh => exact .inl (Except.ok.inj hh).symm

theorem ocStep_ok {values result : Mapping} {unit : List Nat} {digit : Nat}
    (h : ∀ b ∈ unit, b < values.length) :
    ∃ r', ocStep values result unit digit = .ok r' := by
  rcases boxesWith_ok h with ⟨l, hl⟩
  rw [ocStep, hl]
  exact ⟨_, rfl⟩

theorem onlyChoice_ok {values : Mapping} (h : values.length = 81) :
    ∃ w, onlyChoice values = .ok w := by
  rw [onlyChoice]
  apply foldlM_except_ok
  intro r unit hunit
  apply foldlM_except_ok
  intro r' digit _
  exact ocStep_ok (fun b hb => by rw [h]; exact (unit_facts unit hunit).2.2 b hb)

theorem onlyChoice_length {values w : Mapping} (h : onlyChoice values = .ok w) :
    w.length = values.length := by
  rw [onlyChoice] at h
  refine foldlM_except_invariant (fun r => r.length = values.length) _ unitlist
    values w ?_ rfl h
  intro r unit r₁ hunit hstep hr
  refine foldlM_except_invariant (fun x => x.length = values.length) _ digits
    r r₁ ?_ hr hstep
  intro x digit x₁ _ hx hxlen
  rcases ocStep_cases hx with rfl | ⟨b, _, _, rfl⟩
  · exact hxlen
  · rw [List.length_set]; exact hxlen

/-- Pointwise effect of `only_choice`: every box either keeps its domain or
is set to a single digit it already admitted. -/
theorem onlyChoice_pointwise {values w : Mapping} (h : onlyChoice values = .ok w) :
    ∀ i, w.getD i [] = values.getD i [] ∨
      ∃ d, w.getD i [] = [d] ∧ d ∈ values.getD i [] := by
  rw [onlyChoice] at h
  refine foldlM_except_invariant
    (fun r => ∀ i, r.getD i [] = values.getD i [] ∨
      ∃ d, r.getD i [] = [d] ∧ d ∈ values.getD i []) _ unitlist values w ?_
    (fun i => .inl rfl) h
  intro r unit r₁ hunit hstep hr
  refine foldlM_except_invariant (fun x => ∀ i, x.getD i [] = values.getD i [] ∨
      ∃ d, x.getD i [] = [d] ∧ d ∈ values.getD i []) _ digits r r₁ ?_ hr hstep
  intro x digit x₁ _ hx hxpt i
  rcases ocStep_cases hx with rfl | ⟨b, _, hdig, rfl⟩
  · exact hxpt i
  · rcases eq_or_ne i b with rfl | hne
    · rcases Nat.lt_or_ge i x.length with hlt | hge
      · rw [getD_set_self hlt]
        exact .inr ⟨digit, rfl, hdig⟩
      · rw [List.set_eq_of_length_le hge]
        exact hxpt i
    · rw [getD_set_ne (fun hh => hne hh.symm)]
      exact hxpt i

/-! ### `reduce_puzzle` lemmas -/

theorem getD_indep {α : Type} {l : List α} {i : Nat} (h : i < l.length) (d d' : α) :
    l.getD i d = l.getD i d' := by
  rw [List.getD_eq_getElem?_getD, List.getD_eq_getElem?_getD,
    List.getElem?_eq_getElem h]
  rfl

theorem getD_of_ge {α : Type} {l : List α} {i : Nat} (h : l.length ≤ i) (d : α) :
    l.getD i d = d := by
  rw [List.getD_eq_getElem?_getD, List.getElem?_eq_none h]
  rfl

theorem ext_of_getD {α : Type} {l₁ l₂ : List α} (d : α) (hlen : l₁.length = l₂.length)
    (h : ∀ i, i < l₁.length → l₁.getD i d = l₂.getD i d) : l₁ = l₂ := by
  apply List.ext_getElem?
  intro i
  rcases Nat.lt_or_ge i l₁.length with hi | hi
  · have h₁ := h i hi
    rw [List.getD_eq_getElem?_getD, List.getD_eq_getElem?_getD,
      List.getElem?_eq_getElem hi, List.getElem?_eq_getElem (hlen ▸ hi)] at h₁
    rw [List.getElem?_eq_getElem hi, List.getElem?_eq_getElem (hlen ▸ hi)]
    simpa using h₁
  · rw [List.getElem?_eq_none hi, List.getElem?_eq_none (hlen ▸ hi)]

theorem emptyCount_zero_iff {w : Mapping} :
    emptyCount w = 0 ↔ ∀ i, i < w.length → w.getD i [] ≠ [] := by
  rw [emptyCount, List.countP_eq_zero]
  constructor
  · intro h i hi hnil
    have hmem := @getD_mem Domain w i [] hi
    have := h _ hmem
    rw [hnil] at this
    simp at this
  · intro h dom hdom
    rcases (mem_iff_getD ([] : Domain)).1 hdom with ⟨i, hi, rfl⟩
    have := h i hi
    simp only [decide_eq_true_eq]
    intro hlen
    exact this (List.length_eq_zero.1 hlen)

/-- Fixed boxes survive one `eliminate`/`only_choice` iteration unchanged
whenever the iteration does not produce an empty domain. -/
theorem ocElim_fixed_pointwise {v w : Mapping}
    (hoc : onlyChoice (eliminate v) = .ok w) (hemp : emptyCount w = 0) :
    ∀ i, i < v.length → (v.getD i []).length = 1 → w.getD i [] = v.getD i [] := by
  intro i hi hfix
  rcases List.length_eq_one.1 hfix with ⟨c, hc⟩
  have hsub : List.Sublist ((eliminate v).getD i []) [c] := hc ▸ getD_eliminate_sublist
  have hwlen : w.length = v.length := by
    rw [onlyChoice_length hoc, length_eliminate]
  cases List.sublist_singleton.1 hsub with
  | inl hnil =>
    exfalso
    rcases onlyChoice_pointwise hoc i with he | ⟨d, hd, hdm⟩
    · rw [hnil] at he
      exact (emptyCount_zero_iff.1 hemp i (hwlen ▸ hi)) he
    · rw [hnil] at hdm
      cases hdm
  | inr hone =>
    rcases onlyChoice_pointwise hoc i with he | ⟨d, hd, hdm⟩
    · rw [he, hone, hc]
    · rw [hone] at hdm
      rcases List.mem_singleton.1 hdm with rfl
      rw [hd, hc]

/-- C3's monotonicity core: absent an emptied domain, one iteration cannot
decrease the number of fixed boxes. -/
theorem ocElim_mono {v w : Mapping}
    (hoc : onlyChoice (eliminate v) = .ok w) (hemp : emptyCount w = 0) :
    solvedCount v ≤ solvedCount w := by
  have hwlen : w.length = v.length := by
    rw [onlyChoice_length hoc, length_eliminate]
  apply countP_le_of_pointwise _ v w hwlen.symm
  intro i hi d hp
  rw [getD_indep hi d [], decide_eq_true_eq] at hp
  rw [getD_indep (by omega : i < w.length) d [], decide_eq_true_eq,
    ocElim_fixed_pointwise hoc hemp i hi hp]
  exact hp

theorem solvedCount_le_length {v : Mapping} : solvedCount v ≤ v.length :=
  List.countP_le_length _

/-- Inversion for a successful `reduce_puzzle`: a non-failure result is the
product of a final stalled iteration without empty domains. -/
theorem reducePuzzle_ok_inv :
    ∀ {fuel : Nat} {v y : Mapping}, reducePuzzle fuel v = .ok y →
      y = [] ∨ ∃ v₁, v₁.length = v.length ∧ onlyChoice (eliminate v₁) = .ok y ∧
        solvedCount y = solvedCount v₁ ∧ emptyCount y = 0 := by
  intro fuel
  induction fuel with
  | zero => intro v y h; cases h
  | succ fuel ih =>
    intro v y h
    rw [reducePuzzle] at h
    split at h
    · cases h
    · next v₂ hoc =>
      split at h
      · exact .inl (Except.ok.inj h).symm
      · next hemp =>
        push_neg at hemp
        split at h
        · next hst =>
          cases h
          exact .inr ⟨v, rfl, hoc, hst, hemp⟩
        · rcases ih h with hnil | ⟨v₁, hlen, h₁, h₂, h₃⟩
          · exact .inl hnil
          · refine .inr ⟨v₁, ?_, h₁, h₂, h₃⟩
            rw [hlen, onlyChoice_length hoc, length_eliminate]

theorem reducePuzzle_fuel_mono :
    ∀ (n₁ : Nat) {n₂ : Nat} {v : Mapping}, v.length = 81 →
      81 - solvedCount v < n₁ → 81 - solvedCount v < n₂ →
      reducePuzzle n₁ v = reducePuzzle n₂ v := by
  intro n₁
  induction n₁ using Nat.strong_induction_on with
  | _ n₁ ih =>
    intro n₂ v h81 hb₁ hb₂
    match n₁, n₂ with
    | 0, _ => omega
    | _, 0 => omega
    | m₁ + 1, m₂ + 1 =>
      have hulen : (eliminate v).length = 81 := by rw [length_eliminate, h81]
      rcases onlyChoice_ok hulen with ⟨w, hw⟩
      have hwlen : w.length = 81 := by rw [onlyChoice_length hw, hulen]
      rw [reducePuzzle, reducePuzzle, hw]
      simp only []
      by_cases hemp : emptyCount w ≠ 0
      · rw [if_pos hemp, if_pos hemp]
      · rw [if_neg hemp, if_neg hemp]
        by_cases hst : solvedCount w = solvedCount v
        · rw [if_pos hst, if_pos hst]
        · rw [if_neg hst, if_neg hst]
          push_neg at hemp
          have hmono : solvedCount v ≤ solvedCount w := ocElim_mono hw hemp
          have hwle : solvedCount w ≤ 81 := hwlen ▸ solvedCount_le_length
          exact ih m₁ (by omega) hwlen (by omega) (by omega)

theorem reducePuzzle_no_noFuel :
    ∀ (n : Nat) {v : Mapping}, v.length = 81 → 81 - solvedCount v < n →
      reducePuzzle n v ≠ .error .noFuel := by
  intro n
  induction n using Nat.strong_induction_on with
  | _ n ih =>
    intro v h81 hb
    match n with
    | 0 => omega
    | m + 1 =>
      have hulen : (eliminate v).length = 81 := by rw [length_eliminate, h81]
      rcases onlyChoice_ok hulen with ⟨w, hw⟩
      have hwlen : w.length = 81 := by rw [onlyChoice_length hw, hulen]
      rw [reducePuzzle, hw]
      simp only []
      by_cases hemp : emptyCount w ≠ 0
      · rw [if_pos hemp]; intro hh; cases hh
      · rw [if_neg hemp]
        by_cases hst : solvedCount w = solvedCount v
        · rw [if_pos hst]; intro hh; cases hh
        · rw [if_neg hst]
          push_neg at hemp
          have hmono : solvedCount v ≤ solvedCount w := ocElim_mono hw hemp
          have hwle : solvedCount w ≤ 81 := hwlen ▸ solvedCount_le_length
          exact ih m (by omega) hwlen (by omega)

/-- The stalled final iteration of `reduce_puzzle` returns an exact joint
fixed point of `eliminate` and `only_choice`, in which no fixed digit
occurs in any peer of its cell. -/
theorem rp_stall_core {v₁ y : Mapping} (h81 : v₁.length = 81)
    (hoc : onlyChoice (eliminate v₁) = .ok y)
    (hcnt : solvedCount y = solvedCount v₁) (hemp : emptyCount y = 0) :
    eliminate y = y ∧ onlyChoice y = .ok y ∧
    (∀ i c, y.getD i [] = [c] → ∀ p ∈ peersOf i, c ∉ y.getD p []) := by
  have hulen : (eliminate v₁).length = 81 := by rw [length_eliminate, h81]
  have hylen : y.length = 81 := by rw [onlyChoice_length hoc, hulen]
  have h1 : ∀ i, i < 81 → (v₁.getD i []).length = 1 → y.getD i [] = v₁.getD i [] :=
    fun i hi => ocElim_fixed_pointwise hoc hemp i (by omega)
  have h2 : ∀ i, i < 81 → (y.getD i []).length = 1 → (v₁.getD i []).length = 1 := by
    intro i hi hfix
    have hpt : ∀ j, j < v₁.length → ∀ d,
        (decide ((v₁.getD j d).length = 1)) = true → (decide ((y.getD j d).length = 1)) = true := by
      intro j hj d hp
      rw [getD_indep hj d [], decide_eq_true_eq] at hp
      rw [getD_indep (by omega : j < y.length) d [], decide_eq_true_eq,
        h1 j (by omega) hp]
      exact hp
    have h2a := countP_pointwise_iff _ v₁ y (by omega) hpt
      (by rw [solvedCount] at hcnt; exact hcnt.symm) i (by omega) []
    have this : decide ((y.getD i []).length = 1) = true → decide ((v₁.getD i []).length = 1) = true := h2a
    have hfix2 : decide ((y.getD i []).length = 1) = true := decide_eq_true hfix
    exact of_decide_eq_true (this hfix2)
  have h3 : y = eliminate v₁ := by
    apply ext_of_getD [] (by omega)
    intro i hi
    have hi81 : i < 81 := by omega
    rcases onlyChoice_pointwise hoc i with he | ⟨d, hd, hdm⟩
    · exact he
    · have hfix : (y.getD i []).length = 1 := by rw [hd]; rfl
      rcases List.length_eq_one.1 (h2 i hi81 hfix) with ⟨c, hc⟩
      have hsub : List.Sublist ((eliminate v₁).getD i []) [c] := hc ▸ getD_eliminate_sublist
      cases List.sublist_singleton.1 hsub with
      | inl hnil => rw [hnil] at hdm; cases hdm
      | inr hone =>
        rw [hone] at hdm
        rcases List.mem_singleton.1 hdm with rfl
        rw [hd, hone]
  have hfixpeers : ∀ i c, y.getD i [] = [c] → ∀ p ∈ peersOf i, c ∉ y.getD p [] := by
    intro i c hyc p hp
    rcases Nat.lt_or_ge i 81 with hi | hi
    · have hfix1 : (y.getD i []).length = 1 := by rw [hyc]; rfl
      rcases List.length_eq_one.1 (h2 i hi hfix1) with ⟨c', hc'⟩
      have hcc : v₁.getD i [] = [c] := by
        have h5 := h1 i hi (by rw [hc']; rfl)
        rw [hyc] at h5
        exact h5.symm
      have hfin : ((List.range v₁.length).foldl elimStep v₁).getD i [] = [c] := by
        rw [← eliminate, ← h3]
        exact hyc
      have := elimFold_fixed_not_mem_peers (List.mem_range.2 (by omega)) hcc hfin p hp
      rw [← eliminate, ← h3] at this
      exact this
    · rw [getD_of_ge (by omega) []] at hyc
      cases hyc
  refine ⟨eliminate_eq_self hfixpeers, ?_, hfixpeers⟩
  rw [h3] at hoc ⊢
  exact hoc

/-- `reduce_puzzle` applied to such a joint fixed point returns it after a
single stalled iteration. -/
theorem rp_on_fixpoint {y : Mapping} (helim : eliminate y = y)
    (hoc : onlyChoice y = .ok y) (hemp : emptyCount y = 0) (fuel : Nat) :
    reducePuzzle (fuel + 1) y = .ok y := by
  rw [reducePuzzle, helim, hoc]
  simp [hemp]

/-! ### Claims C3 and C7: `reduce_puzzle` -/

/-- The fully unconstrained mapping: every cell admits all nine digits. -/
def allFull : Mapping := List.replicate 81 digits

/-- A mapping whose two first cells of row A are both fixed to `5`. -/
def mC3 : Mapping := [5] :: [5] :: List.replicate 79 digits

/-- The mapping produced by one `only_choice` application, with the raised
`KeyError` collapsed to `[]` so the outcome is decidable. -/
def ocRun (v : Mapping) : Mapping :=
  match onlyChoice v with
  | .ok w => w
  | .error _ => []

def ocRunOk (v : Mapping) : Bool :=
  match onlyChoice v with
  | .ok _ => true
  | .error _ => false

/-- C3 (corrected): an iteration of the `reduce_puzzle` loop that does not
empty a domain never decreases the count of fixed cells, and the loop always
terminates — but within 82 iterations, not 81 (fuel 82 is enough for every
81-entry mapping and more fuel never changes the result), and an iteration
that produces an empty domain may strictly decrease the count before the
loop returns the failure value (see the counterexample). -/
theorem claim_C3 : ∀ v : Mapping, v.length = 81 →
    (∀ w, onlyChoice (eliminate v) = .ok w → emptyCount w = 0 →
      solvedCount v ≤ solvedCount w) ∧
    (∀ n, 82 ≤ n → reducePuzzle n v = reducePuzzle 82 v) ∧
    reducePuzzle 82 v ≠ .error .noFuel := by
  intro v h81
  refine ⟨fun w hw hemp => ocElim_mono hw hemp, fun n hn => ?_, ?_⟩
  · exact reducePuzzle_fuel_mono n h81 (by omega) (by omega)
  · exact reducePuzzle_no_noFuel 82 h81 (by omega)

/-- C3, counterexample to the claim as stated: with two `5`s given in row A,
the first iteration of `reduce_puzzle` lowers the count of fixed cells from
2 to 1 (the elimination pass empties `A2`, and the loop then returns the
failure value), so the count is not non-decreasing across each iteration. -/
theorem claim_C3_counterexample :
    mC3.length = 81 ∧ ocRunOk (eliminate mC3) = true ∧
    solvedCount mC3 = 2 ∧ solvedCount (ocRun (eliminate mC3)) = 1 ∧
    reducePuzzle 82 mC3 = .ok [] := by
  refine ⟨by decide, by decide!, by decide, by decide!, by decide!⟩

theorem claim_C3_witness :
    allFull.length = 81 ∧
    (∀ w, onlyChoice (eliminate allFull) = .ok w → emptyCount w = 0 →
      solvedCount allFull ≤ solvedCount w) ∧
    reducePuzzle 83 allFull = reducePuzzle 82 allFull ∧
    reducePuzzle 82 allFull ≠ .error .noFuel := by
  have C := claim_C3 allFull (by decide)
  exact ⟨by decide, C.1, C.2.1 83 (by omega), C.2.2⟩

/-- C7 (confirmed): `reduce_puzzle` is idempotent on its non-failure
outputs: a successful non-empty result `y` is an exact joint fixed point of
`eliminate` and `only_choice`, and running `reduce_puzzle` on it (with any
positive fuel) returns `y` after one stalled iteration. -/
theorem claim_C7 : ∀ (v : Mapping) (fuel : Nat) (y : Mapping), v.length = 81 →
    reducePuzzle fuel v = .ok y → y ≠ [] →
    ∀ fuel', reducePuzzle (fuel' + 1) y = .ok y := by
  intro v fuel y h81 hrp hne fuel'
  rcases reducePuzzle_ok_inv hrp with rfl | ⟨v₁, hlen, hoc, hcnt, hemp⟩
  · exact absurd rfl hne
  · rcases rp_stall_core (by rw [hlen, h81]) hoc hcnt hemp with ⟨h₁, h₂, _⟩
    exact rp_on_fixpoint h₁ h₂ hemp fuel'

theorem claim_C7_witness :
    allFull.length = 81 ∧ reducePuzzle 1 allFull = .ok allFull ∧
    allFull ≠ [] ∧ reducePuzzle (0 + 1) allFull = .ok allFull := by
  have hrp : reducePuzzle 1 allFull = .ok allFull := by decide!
  exact ⟨by decide, hrp, by decide,
    claim_C7 allFull 1 allFull (by decide) hrp (by decide) 0⟩

/-! ### `search` lemmas -/

/-- All candidate digits of all domains lie in `'1'..'9'` (the well-formed
mappings of the specification's data model). -/
def domainsInDigits (v : Mapping) : Prop := ∀ dom ∈ v, ∀ d ∈ dom, d ∈ digits

theorem domainsInDigits_getD {v : Mapping} (h : domainsInDigits v) {i : Nat}
    {d : Nat} (hd : d ∈ v.getD i []) : d ∈ digits := by
  rcases Nat.lt_or_ge i v.length with hi | hi
  · exact h _ (getD_mem hi) d hd
  · rw [getD_of_ge hi] at hd
    cases hd

theorem domainsInDigits_set {v : Mapping} (h : domainsInDigits v) {i : Nat}
    {dom : Domain} (hdom : ∀ d ∈ dom, d ∈ digits) :
    domainsInDigits (v.set i dom) := by
  intro x hx d hd
  rcases (mem_iff_getD ([] : Domain)).1 hx with ⟨j, hj, rfl⟩
  rw [List.length_set] at hj
  rcases eq_or_ne j i with rfl | hne
  · rw [getD_set_self hj] at hd
    exact hdom d hd
  · rw [getD_set_ne (fun hh => hne hh.symm)] at hd
    exact h _ (getD_mem hj) d hd

theorem eliminate_domainsInDigits {v : Mapping} (h : domainsInDigits v) :
    domainsInDigits (eliminate v) := by
  intro dom hdom d hd
  rcases (mem_iff_getD ([] : Domain)).1 hdom with ⟨i, hi, rfl⟩
  rw [length_eliminate] at hi
  exact domainsInDigits_getD h (getD_eliminate_sublist.subset hd)

theorem onlyChoice_domainsInDigits {v w : Mapping} (hoc : onlyChoice v = .ok w)
    (h : domainsInDigits v) : domainsInDigits w := by
  rw [onlyChoice] at hoc
  refine foldlM_except_invariant domainsInDigits _ unitlist v w ?_ h hoc
  intro r unit r₁ hunit hstep hr
  refine foldlM_except_invariant domainsInDigits _ digits r r₁ ?_ hr hstep
  intro x digit x₁ hdig hx hxP
  rcases ocStep_cases hx with rfl | ⟨b, _, _, rfl⟩
  · exact hxP
  · exact domainsInDigits_set hxP (fun d hd => by
      rw [List.mem_singleton.1 hd]; exact hdig)

theorem reducePuzzle_domainsInDigits :
    ∀ {fuel : Nat} {v y : Mapping}, reducePuzzle fuel v = .ok y →
      domainsInDigits v → domainsInDigits y := by
  intro fuel
  induction fuel with
  | zero => intro v y h; cases h
  | succ fuel ih =>
    intro v y h hv
    rw [reducePuzzle] at h
    split at h
    · cases h
    · next v₂ hoc =>
      have hv₂ : domainsInDigits v₂ :=
        onlyChoice_domainsInDigits hoc (eliminate_domainsInDigits hv)
      split at h
      · cases h
        intro dom hdom
        cases hdom
      · split at h
        · cases h
          exact hv₂
        · exact ih h hv₂

theorem reducePuzzle_ok_length :
    ∀ {fuel : Nat} {v y : Mapping}, reducePuzzle fuel v = .ok y →
      y = [] ∨ y.length = v.length := by
  intro fuel v y h
  rcases reducePuzzle_ok_inv h with hnil | ⟨v₁, hlen, hoc, _, _⟩
  · exact .inl hnil
  · refine .inr ?_
    rw [onlyChoice_length hoc, length_eliminate, hlen]

theorem searchDigits_inv {prev : Mapping → Except Err Mapping} {sq : Nat} :
    ∀ {ds : List Nat} {vals m : Mapping},
      searchDigits prev sq vals ds = .ok m →
      m = [] ∨ ∃ vals', vals'.length = vals.length ∧ prev vals' = .ok m := by
  intro ds
  induction ds with
  | nil =>
    intro vals m h
    rw [searchDigits] at h
    exact .inl (Except.ok.inj h).symm
  | cons d ds ih =>
    intro vals m h
    rw [searchDigits] at h
    split at h
    · cases h
    · next sol hsol =>
      split at h
      · rcases ih h with hnil | ⟨vals', hlen, hprev⟩
        · exact .inl hnil
        · exact .inr ⟨vals', by rw [hlen, List.length_set], hprev⟩
      · cases h
        exact .inr ⟨vals.set sq [d], List.length_set vals sq [d], hsol⟩

theorem searchDigits_domains {prev : Mapping → Except Err Mapping} {sq : Nat}
    (hprev : ∀ vals m, domainsInDigits vals → prev vals = .ok m →
      m = [] ∨ domainsInDigits m) :
    ∀ {ds : List Nat} {vals m : Mapping}, (∀ d ∈ ds, d ∈ digits) →
      domainsInDigits vals → searchDigits prev sq vals ds = .ok m →
      m = [] ∨ domainsInDigits m := by
  intro ds
  induction ds with
  | nil =>
    intro vals m _ _ h
    rw [searchDigits] at h
    exact .inl (Except.ok.inj h).symm
  | cons d ds ih =>
    intro vals m hds hvals h
    rw [searchDigits] at h
    have hvals' : domainsInDigits (vals.set sq [d]) :=
      domainsInDigits_set hvals (fun x hx => by
        rw [List.mem_singleton.1 hx]; exact hds d (.head ds))
    split at h
    · cases h
    · next sol hsol =>
      split at h
      · exact ih (fun x hx => hds x (.tail d hx)) hvals' h
      · cases h
        exact hprev _ _ hvals' hsol

theorem search_domains :
    ∀ {fuel : Nat} {v m : Mapping}, domainsInDigits v → search fuel v = .ok m →
      m = [] ∨ domainsInDigits m := by
  intro fuel
  induction fuel with
  | zero => intro v m _ h; cases h
  | succ fuel ih =>
    intro v m hv h
    rw [search] at h
    split at h
    · cases h
    · next v' hrp =>
      have hv' : domainsInDigits v' := reducePuzzle_domainsInDigits hrp hv
      split at h
      · cases h
        exact .inl rfl
      · split at h
        · cases h
          exact .inr hv'
        · next b bs hbs =>
          refine searchDigits_domains (fun vals mm hva hok => ih hva hok) ?_ hv' h
          intro d hd
          exact domainsInDigits_getD hv' hd

/-- Inversion for a successful non-failure `search`: the result came out of a
stalled, empty-free `reduce_puzzle` iteration and has every box fixed. -/
theorem search_ok_inv :
    ∀ {fuel : Nat} {v m : Mapping}, search fuel v = .ok m →
      m = [] ∨ (m.length = v.length ∧
        (∀ i, i < m.length → (m.getD i []).length = 1) ∧
        ∃ v₁, v₁.length = m.length ∧ onlyChoice (eliminate v₁) = .ok m ∧
          solvedCount m = solvedCount v₁ ∧ emptyCount m = 0) := by
  intro fuel
  induction fuel with
  | zero => intro v m h; cases h
  | succ fuel ih =>
    intro v m h
    rw [search] at h
    split at h
    · cases h
    · next v' hrp =>
      have hlen' : v' = [] ∨ v'.length = v.length := reducePuzzle_ok_length hrp
      split at h
      · cases h
        exact .inl rfl
      · next hne =>
        have hvne : ¬ v' = [] := by
          intro hh
          rw [hh] at hne
          exact hne rfl
        have hlen : v'.length = v.length := hlen'.resolve_left hvne
        split at h
        · next hfil =>
          cases h
          rcases reducePuzzle_ok_inv hrp with hnil | ⟨v₁, hl₁, hoc, hcnt, hemp⟩
          · exact absurd hnil hvne
          · refine .inr ⟨hlen, ?_, v₁, ?_, hoc, hcnt, hemp⟩
            · intro i hi
              have hnot := List.filter_eq_nil_iff.1 hfil i (List.mem_range.2 hi)
              rw [decide_eq_true_eq] at hnot
              have hne0 : m.getD i [] ≠ [] := emptyCount_zero_iff.1 hemp i hi
              have : (m.getD i []).length ≤ 1 := by omega
              have hpos : 0 < (m.getD i []).length := by
                cases hlen0 : (m.getD i []).length with
                | zero => exact absurd (List.length_eq_zero.1 hlen0) hne0
                | succ k => omega
              omega
            · rw [hl₁, onlyChoice_length hoc, length_eliminate, hl₁]
        · rcases searchDigits_inv h with hnil | ⟨vals', hl, hok⟩
          · exact .inl hnil
          · rcases ih hok with hnil | ⟨hml, hfix, hrest⟩
            · exact .inl hnil
            · exact .inr ⟨by rw [hml, hl, hlen], hfix, hrest⟩

theorem length_flatten_of_singletons {L : List Domain}
    (h : ∀ x ∈ L, x.length = 1) : L.flatten.length = L.length := by
  induction L with
  | nil => rfl
  | cons x L ih =>
    rw [List.flatten_cons, List.length_append, h x (.head L),
      ih (fun y hy => h y (.tail x hy)), List.length_cons]
    omega

/-! ### Claim C1: search soundness -/

/-- C1 (confirmed): whenever `search` returns a non-failure mapping in which
every cell is fixed to a single digit, every unit of `unitlist` (rows,
columns, boxes and both diagonals) carries a permutation of the digits 1–9,
with no repeats. -/
theorem claim_C1 : ∀ (fuel : Nat) (v m : Mapping), v.length = 81 →
    domainsInDigits v → search fuel v = .ok m → m ≠ [] →
    (∀ dom ∈ m, dom.length = 1) →
    ∀ u ∈ unitlist, List.Perm ((u.map (fun b => m.getD b [])).flatten) digits := by
  intro fuel v m h81 hWF hs hne hfixmem u hu
  rcases search_ok_inv hs with rfl | ⟨hml, hfix, v₁, hl₁, hoc, hcnt, hemp⟩
  · exact absurd rfl hne
  have hm81 : m.length = 81 := by rw [hml, h81]
  have hWFm : domainsInDigits m := (search_domains hWF hs).resolve_left hne
  rcases rp_stall_core (by rw [hl₁, hm81]) hoc hcnt hemp with ⟨_, _, hfixpeers⟩
  rcases unit_facts u hu with ⟨hlen9, hnodup, hbound⟩
  have hsingle : ∀ x ∈ u.map (fun b => m.getD b []), x.length = 1 := by
    intro x hx
    rcases List.mem_map.1 hx with ⟨b, hb, rfl⟩
    exact hfix b (by rw [hm81]; exact hbound b hb)
  have hlenD : (u.map (fun b => m.getD b [])).flatten.length = 9 := by
    rw [length_flatten_of_singletons hsingle, List.length_map, hlen9]
  have hnodupD : (u.map (fun b => m.getD b [])).flatten.Nodup := by
    rw [List.nodup_flatten]
    constructor
    · intro s hs'
      rcases List.mem_map.1 hs' with ⟨b, hb, rfl⟩
      rcases List.length_eq_one.1
        (hfix b (by rw [hm81]; exact hbound b hb)) with ⟨c, hc⟩
      rw [hc]
      exact List.nodup_singleton c
    · rw [List.pairwise_map]
      refine List.Pairwise.imp_of_mem ?_ hnodup
      intro a b ha hb hneq
      rcases List.length_eq_one.1
        (hfix a (by rw [hm81]; exact hbound a ha)) with ⟨ca, hca⟩
      rcases List.length_eq_one.1
        (hfix b (by rw [hm81]; exact hbound b hb)) with ⟨cb, hcb⟩
      have hbp : b ∈ peersOf a := by
        rw [peersOf_eq (hbound a ha)]
        exact peers_of_same_unit hu ha hb (fun hh => hneq hh.symm)
      have hnot : ca ∉ m.getD b [] := hfixpeers a ca hca b hbp
      rw [hca, hcb]
      intro x hx hy
      rcases List.mem_singleton.1 hx with rfl
      rcases List.mem_singleton.1 hy with rfl
      exact hnot (hcb ▸ List.mem_singleton_self x)
  have hsubD : (u.map (fun b => m.getD b [])).flatten ⊆ digits := by
    intro d hd
    rcases List.mem_flatten.1 hd with ⟨s, hsL, hds⟩
    rcases List.mem_map.1 hsL with ⟨b, hb, rfl⟩
    exact domainsInDigits_getD hWFm hds
  have hsp : List.Subperm ((u.map (fun b => m.getD b [])).flatten) digits :=
    List.subperm_of_subset hnodupD hsubD
  exact hsp.perm_of_length_le (by rw [hlenD]; exact Nat.le_refl 9)

/-- A solved diagonal grid (the output of the solver on the repository's
canonical puzzle), used as a concrete witness input. -/
def solvedDigits : List Nat :=
  [2,6,7,9,4,5,3,8,1, 8,5,3,7,1,6,2,4,9, 4,9,1,8,2,3,5,7,6,
   5,7,6,4,3,8,1,9,2, 3,8,4,1,9,2,6,5,7, 1,2,9,6,5,7,4,3,8,
   6,4,2,3,7,9,8,1,5, 9,3,5,2,8,1,7,6,4, 7,1,8,5,6,4,9,2,3]

def solvedGrid : Mapping := solvedDigits.map (fun d => [d])

theorem claim_C1_witness :
    solvedGrid.length = 81 ∧ (∀ dom ∈ solvedGrid, ∀ d ∈ dom, d ∈ digits) ∧
    search 2 solvedGrid = .ok solvedGrid ∧ solvedGrid ≠ [] ∧
    (∀ dom ∈ solvedGrid, dom.length = 1) ∧
    List.Perm (((cross [0] cols).map (fun b => solvedGrid.getD b [])).flatten) digits := by
  have hs : search 2 solvedGrid = .ok solvedGrid := by decide!
  exact ⟨by decide, by decide, hs, by decide, by decide,
    claim_C1 2 solvedGrid solvedGrid (by decide) (fun dom hdom d hd => by
      revert dom hdom d hd; decide) hs (by decide)
      (by decide) (cross [0] cols) (by decide)⟩

/-! ### `naked_twins` lemmas -/

theorem mem_canonicalize {x : Nat} {l : List Nat} :
    x ∈ canonicalize l ↔ x ∈ l := by
  rw [canonicalize]
  exact (List.perm_insertionSort _ l).mem_iff

theorem length_canonicalize {l : List Nat} :
    (canonicalize l).length = l.length := by
  rw [canonicalize]
  exact List.length_insertionSort _ l

theorem mem_canonicalizeSet {x : Nat} {l : List Nat} :
    x ∈ canonicalizeSet l ↔ x ∈ l := by
  rw [canonicalizeSet, mem_canonicalize, mem_dedupF]
  simp

theorem twinKeys_mem {v : Mapping} {k : List Nat} :
    ∀ {l : List Nat}, k ∈ twinKeys v l ↔
      (∃ b ∈ l, canonicalize (v.getD b []) = k) ∧ k.length = 2 := by
  intro l
  induction l with
  | nil => simp [twinKeys]
  | cons b bs ih =>
    rw [twinKeys]
    by_cases hlen : (canonicalize (v.getD b [])).length = 2
    · rw [if_pos hlen]
      constructor
      · intro hk
        cases hk with
        | head => exact ⟨⟨b, .head bs, rfl⟩, hlen⟩
        | tail _ hk' =>
          rcases List.mem_filter.1 hk' with ⟨hmem, _⟩
          rcases ih.1 hmem with ⟨⟨b', hb', hc⟩, h2⟩
          exact ⟨⟨b', .tail b hb', hc⟩, h2⟩
      · rintro ⟨⟨b', hb', hc⟩, h2⟩
        by_cases hkey : k = canonicalize (v.getD b [])
        · rw [hkey]; exact .head _
        · refine .tail _ (List.mem_filter.2 ⟨?_, by simpa using hkey⟩)
          cases hb' with
          | head => exact absurd hc.symm hkey
          | tail _ hb'' => exact ih.2 ⟨⟨b', hb'', hc⟩, h2⟩
    · rw [if_neg hlen, ih]
      constructor
      · rintro ⟨⟨b', hb', hc⟩, h2⟩
        exact ⟨⟨b', .tail b hb', hc⟩, h2⟩
      · rintro ⟨⟨b', hb', hc⟩, h2⟩
        cases hb' with
        | head => rw [hc] at hlen; exact absurd h2 hlen
        | tail _ hb'' => exact ⟨⟨b', hb'', hc⟩, h2⟩

theorem twinKeys_nodup {v : Mapping} : ∀ {l : List Nat}, (twinKeys v l).Nodup := by
  intro l
  induction l with
  | nil => exact List.nodup_nil
  | cons b bs ih =>
    rw [twinKeys]
    split
    · refine List.Nodup.cons ?_ (List.Nodup.filter _ ih)
      intro hmem
      rcases List.mem_filter.1 hmem with ⟨_, hne⟩
      simp at hne
    · exact ih

theorem groupBoxes_mem {v : Mapping} {u : List Nat} {k : List Nat} {b : Nat} :
    b ∈ groupBoxes v u k ↔ b ∈ u ∧ canonicalize (v.getD b []) = k := by
  rw [groupBoxes]
  simp [List.mem_filter]

theorem processPeers_length {key : List Nat} :
    ∀ {ps : List Nat} {v v' : Mapping}, processPeers key v ps = some v' →
      v'.length = v.length := by
  intro ps
  induction ps with
  | nil => intro v v' h; cases h; rfl
  | cons p ps ih =>
    intro v v' h
    rw [processPeers] at h
    split at h
    · cases h
    · have := ih h
      rw [this, List.length_set]

theorem processPeers_subset {key : List Nat} :
    ∀ {ps : List Nat} {v v' : Mapping}, processPeers key v ps = some v' →
      ∀ i d, d ∈ v'.getD i [] → d ∈ v.getD i [] := by
  intro ps
  induction ps with
  | nil => intro v v' h i d hd; cases h; exact hd
  | cons p ps ih =>
    intro v v' h i d hd
    rw [processPeers] at h
    split at h
    · cases h
    · have hstep := ih h i d hd
      rcases eq_or_ne i p with rfl | hne
      · rcases Nat.lt_or_ge i v.length with hlt | hge
        · rw [getD_set_self hlt] at hstep
          exact (List.mem_filter.1 (mem_canonicalizeSet.1 hstep)).1
        · rw [List.set_eq_of_length_le hge] at hstep
          exact hstep
      · rw [getD_set_ne (fun hh => hne hh.symm)] at hstep
        exact hstep

theorem processPeers_removes {key : List Nat} :
    ∀ {ps : List Nat} {v v' : Mapping}, processPeers key v ps = some v' →
      ∀ p ∈ ps, ∀ d ∈ key, d ∉ v'.getD p [] := by
  intro ps
  induction ps with
  | nil => intro v v' h p hp; cases hp
  | cons q ps ih =>
    intro v v' h p hp d hd
    rw [processPeers] at h
    split at h
    · cases h
    · cases hp with
      | tail _ hmem => exact ih h p hmem d hd
      | head =>
        intro hdv'
        have hsub := processPeers_subset h q d hdv'
        rcases Nat.lt_or_ge q v.length with hlt | hge
        · rw [getD_set_self hlt] at hsub
          rcases List.mem_filter.1 (mem_canonicalizeSet.1 hsub) with ⟨_, hdec⟩
          rw [decide_eq_true_eq] at hdec
          exact hdec hd
        · rw [List.set_eq_of_length_le hge, getD_of_ge hge] at hsub
          cases hsub

theorem processPeers_none_iff {key : List Nat} :
    ∀ {ps : List Nat} {v : Mapping}, ps.Nodup →
      (processPeers key v ps = none ↔ ∃ p ∈ ps,
        canonicalizeSet ((v.getD p []).filter (fun d => decide (d ∉ key))) = []) := by
  intro ps
  induction ps with
  | nil =>
    intro v _
    constructor
    · intro h; cases h
    · rintro ⟨p, hp, _⟩; cases hp
  | cons q ps ih =>
    intro v hnd
    rcases List.nodup_cons.1 hnd with ⟨hq, hnd'⟩
    rw [processPeers]
    split
    · next hemp =>
      constructor
      · intro _
        exact ⟨q, .head ps, hemp⟩
      · intro _; rfl
    · next hfill =>
      rw [ih hnd']
      constructor
      · rintro ⟨p, hp, hemp⟩
        have hpq : p ≠ q := fun hh => hq (hh ▸ hp)
        rw [getD_set_ne (fun hh => hpq hh.symm)] at hemp
        exact ⟨p, .tail q hp, hemp⟩
      · rintro ⟨p, hp, hemp⟩
        cases hp with
        | head => exact absurd hemp hfill
        | tail _ hmem =>
          have hpq : p ≠ q := fun hh => hq (hh ▸ hmem)
          refine ⟨p, hmem, ?_⟩
          rw [getD_set_ne (fun hh => hpq hh.symm)]
          exact hemp

theorem processGroups_length {unit : List Nat} :
    ∀ {gs : List (List Nat × List Nat)} {v v' : Mapping},
      processGroups unit v gs = some v' → v'.length = v.length := by
  intro gs
  induction gs with
  | nil => intro v v' h; cases h; rfl
  | cons g gs ih =>
    intro v v' h
    rw [processGroups] at h
    split at h
    · exact ih h
    · split at h
      · cases h
      · split at h
        · cases h
        · next v₃ hps =>
          rw [ih h, processPeers_length hps]

theorem processGroups_subset {unit : List Nat} :
    ∀ {gs : List (List Nat × List Nat)} {v v' : Mapping},
      processGroups unit v gs = some v' →
      ∀ i d, d ∈ v'.getD i [] → d ∈ v.getD i [] := by
  intro gs
  induction gs with
  | nil => intro v v' h i d hd; cases h; exact hd
  | cons g gs ih =>
    intro v v' h i d hd
    rw [processGroups] at h
    split at h
    · exact ih h i d hd
    · split at h
      · cases h
      · split at h
        · cases h
        · next v₃ hps =>
          exact processPeers_subset hps i d (ih h i d hd)

theorem processGroups_append {unit : List Nat} :
    ∀ {gs₁ gs₂ : List (List Nat × List Nat)} {v : Mapping},
      processGroups unit v (gs₁ ++ gs₂) =
        match processGroups unit v gs₁ with
        | none => none
        | some v' => processGroups unit v' gs₂ := by
  intro gs₁
  induction gs₁ with
  | nil => intro gs₂ v; rfl
  | cons g gs₁ ih =>
    intro gs₂ v
    rw [List.cons_append, processGroups, processGroups]
    split
    · exact ih
    · split
      · rfl
      · split
        · rfl
        · exact ih

theorem domsOf_ok {values : Mapping} :
    ∀ {unit : List Nat}, (∀ b ∈ unit, b < values.length) →
      ∃ l, domsOf values unit = .ok l := by
  intro unit
  induction unit with
  | nil => intro _; exact ⟨[], rfl⟩
  | cons b bs ih =>
    intro h
    rcases ih (fun x hx => h x (.tail b hx)) with ⟨l, hl⟩
    refine ⟨values.getD b [] :: l, ?_⟩
    rw [domsOf, dictGet, if_pos (h b (.head bs)), hl]

theorem processUnit_some_inv {values : Mapping} {unit : List Nat} {v' : Mapping}
    (h : processUnit values unit = .ok (some v')) :
    processGroups unit values (groupsOf values unit) = some v' := by
  rw [processUnit] at h
  split at h
  · cases h
  · exact Except.ok.inj h

theorem processUnit_of_groups {values : Mapping} {unit : List Nat}
    (hb : ∀ b ∈ unit, b < values.length) :
    processUnit values unit = .ok (processGroups unit values (groupsOf values unit)) := by
  rcases domsOf_ok hb with ⟨l, hl⟩
  rw [processUnit, hl]

theorem processUnit_some_length {values : Mapping} {unit : List Nat} {v' : Mapping}
    (h : processUnit values unit = .ok (some v')) : v'.length = values.length :=
  processGroups_length (processUnit_some_inv h)

theorem processUnit_nil_not_none {unit : List Nat} :
    processUnit ([] : Mapping) unit ≠ .ok none := by
  cases unit with
  | nil => intro h; cases Except.ok.inj h
  | cons b bs =>
    rw [processUnit, domsOf, dictGet]
    simp

theorem nakedTwinsGo_append_ok {v v₁ : Mapping} (hne : v₁ ≠ []) :
    ∀ {us₁ : List (List Nat)}, nakedTwinsGo v us₁ = .ok v₁ →
      ∀ rest, nakedTwinsGo v (us₁ ++ rest) = nakedTwinsGo v₁ rest := by
  intro us₁
  induction us₁ generalizing v with
  | nil =>
    intro h rest
    cases Except.ok.inj h
    rfl
  | cons u us₁ ih =>
    intro h rest
    rw [nakedTwinsGo] at h
    rw [List.cons_append, nakedTwinsGo]
    split at h
    · cases h
    · cases h
      exact absurd rfl hne
    · next v₂ hpu =>
      exact ih h rest

theorem nakedTwinsGo_ok_length {v y : Mapping} :
    ∀ {us : List (List Nat)}, nakedTwinsGo v us = .ok y →
      y = [] ∨ y.length = v.length := by
  intro us
  induction us generalizing v with
  | nil =>
    intro h
    cases Except.ok.inj h
    exact .inr rfl
  | cons u us ih =>
    intro h
    rw [nakedTwinsGo] at h
    split at h
    · cases h
    · cases h
      exact .inl rfl
    · next v₂ hpu =>
      rcases ih h with hnil | hlen
      · exact .inl hnil
      · exact .inr (by rw [hlen, processUnit_some_length hpu])

theorem nakedTwinsGo_subset {v y : Mapping} :
    ∀ {us : List (List Nat)}, nakedTwinsGo v us = .ok y → y ≠ [] →
      ∀ i d, d ∈ y.getD i [] → d ∈ v.getD i [] := by
  intro us
  induction us generalizing v with
  | nil =>
    intro h _ i d hd
    cases Except.ok.inj h
    exact hd
  | cons u us ih =>
    intro h hne i d hd
    rw [nakedTwinsGo] at h
    split at h
    · cases h
    · cases h
      exact absurd rfl hne
    · next v₂ hpu =>
      exact processGroups_subset (processUnit_some_inv hpu) i d (ih h hne i d hd)

/-- A short-circuited `{}` return of the unit loop happens exactly when some
prefix of the units processes normally and the next unit's group loop
signals a contradiction. -/
theorem nakedTwinsGo_empty_iff {v : Mapping} (h81 : v.length = 81) :
    ∀ {us : List (List Nat)}, nakedTwinsGo v us = .ok [] ↔
      ∃ us₁ u us₂ v', us = us₁ ++ u :: us₂ ∧ nakedTwinsGo v us₁ = .ok v' ∧
        processUnit v' u = .ok none := by
  intro us
  induction us generalizing v h81 with
  | nil =>
    constructor
    · intro h
      have hv : v = [] := Except.ok.inj h
      rw [hv] at h81
      simp at h81
    · rintro ⟨us₁, u, us₂, v', hsplit, _, _⟩
      cases (List.append_eq_nil.1 hsplit.symm).2
  | cons u us ih =>
    rw [nakedTwinsGo]
    constructor
    · intro h
      split at h
      · cases h
      · next hpu =>
        exact ⟨[], u, us, v, rfl, rfl, hpu⟩
      · next v₂ hpu =>
        have h81₂ : v₂.length = 81 := by rw [processUnit_some_length hpu, h81]
        rcases (ih h81₂).1 h with ⟨us₁, u', us₂, v', hsplit, hgo, hnone⟩
        refine ⟨u :: us₁, u', us₂, v', by rw [hsplit, List.cons_append], ?_, hnone⟩
        rw [nakedTwinsGo, hpu]
        exact hgo
    · rintro ⟨us₁, u', us₂, v', hsplit, hgo, hnone⟩
      cases us₁ with
      | nil =>
        rw [List.nil_append] at hsplit
        cases hsplit
        cases Except.ok.inj hgo
        rw [hnone]
      | cons u₀ us₁ =>
        rw [List.cons_append] at hsplit
        injection hsplit with hu hrest
        cases hu
        rw [nakedTwinsGo] at hgo
        split at hgo
        · cases hgo
        · cases hgo
          exact absurd hnone processUnit_nil_not_none
        · next v₂ hpu =>
          have h81₂ : v₂.length = 81 := by rw [processUnit_some_length hpu, h81]
          exact (ih h81₂).2 ⟨us₁, u', us₂, v', hrest, hgo, hnone⟩

theorem processGroups_cons_skip {unit : List Nat} {key : List Nat} {bxs : List Nat}
    {gs : List (List Nat × List Nat)} {v : Mapping} (h : bxs.length < 2) :
    processGroups unit v ((key, bxs) :: gs) = processGroups unit v gs := by
  rw [processGroups, if_pos h]

theorem processGroups_cons_three {unit : List Nat} {key : List Nat} {bxs : List Nat}
    {gs : List (List Nat × List Nat)} {v : Mapping} (h₂ : ¬ bxs.length < 2)
    (h₃ : bxs.length > 2) : processGroups unit v ((key, bxs) :: gs) = none := by
  rw [processGroups, if_neg h₂, if_pos h₃]

theorem processGroups_cons_twins {unit : List Nat} {key : List Nat} {bxs : List Nat}
    {gs : List (List Nat × List Nat)} {v v₃ : Mapping} (h₂ : ¬ bxs.length < 2)
    (h₃ : ¬ bxs.length > 2)
    (hps : processPeers key v (unit.filter (fun b => decide (b ∉ bxs))) = some v₃) :
    processGroups unit v ((key, bxs) :: gs) = processGroups unit v₃ gs := by
  rw [processGroups, if_neg h₂, if_neg h₃, hps]

theorem processGroups_cons_emptied {unit : List Nat} {key : List Nat} {bxs : List Nat}
    {gs : List (List Nat × List Nat)} {v : Mapping} (h₂ : ¬ bxs.length < 2)
    (h₃ : ¬ bxs.length > 2)
    (hps : processPeers key v (unit.filter (fun b => decide (b ∉ bxs))) = none) :
    processGroups unit v ((key, bxs) :: gs) = none := by
  rw [processGroups, if_neg h₂, if_neg h₃, hps]

/-- The group loop of one unit signals `Contradiction` exactly when, with
the mapping reached after the preceding groups, the next group has three or
more boxes sharing the two-candidate domain, or is a twin pair whose digit
removal would empty some other cell of the unit. -/
theorem processGroups_none_iff {unit : List Nat} (hnd : unit.Nodup) :
    ∀ {gs : List (List Nat × List Nat)} {v : Mapping},
      processGroups unit v gs = none ↔
      ∃ gs₁ key bxs gs₂ v', gs = gs₁ ++ (key, bxs) :: gs₂ ∧
        processGroups unit v gs₁ = some v' ∧ 2 ≤ bxs.length ∧
        (2 < bxs.length ∨ ∃ p ∈ unit.filter (fun b => decide (b ∉ bxs)),
          canonicalizeSet ((v'.getD p []).filter (fun d => decide (d ∉ key))) = []) := by
  intro gs
  induction gs with
  | nil =>
    intro v
    constructor
    · intro h; cases h
    · rintro ⟨gs₁, key, bxs, gs₂, v', hsplit, _, _, _⟩
      cases (List.append_eq_nil.1 hsplit.symm).2
  | cons g gs ih =>
    intro v
    obtain ⟨key, bxs⟩ := g
    by_cases h₂ : bxs.length < 2
    · rw [processGroups_cons_skip h₂, ih]
      constructor
      · rintro ⟨gs₁, key', bxs', gs₂, v', hsplit, hpre, hge, hcause⟩
        refine ⟨(key, bxs) :: gs₁, key', bxs', gs₂, v', by rw [hsplit, List.cons_append],
          ?_, hge, hcause⟩
        rw [processGroups_cons_skip h₂]
        exact hpre
      · rintro ⟨gs₁, key', bxs', gs₂, v', hsplit, hpre, hge, hcause⟩
        cases gs₁ with
        | nil =>
          rw [List.nil_append] at hsplit
          injection hsplit with hg hrest
          injection hg with hk hb
          rw [← hb] at hge
          omega
        | cons g₀ gs₁ =>
          rw [List.cons_append] at hsplit
          injection hsplit with hg hrest
          rw [← hg, processGroups_cons_skip h₂] at hpre
          exact ⟨gs₁, key', bxs', gs₂, v', hrest, hpre, hge, hcause⟩
    · by_cases h₃ : bxs.length > 2
      · rw [processGroups_cons_three h₂ h₃]
        constructor
        · intro _
          exact ⟨[], key, bxs, gs, v, rfl, rfl, by omega, .inl h₃⟩
        · intro _
          rfl
      · cases hps : processPeers key v (unit.filter (fun b => decide (b ∉ bxs))) with
        | none =>
          rw [processGroups_cons_emptied h₂ h₃ hps]
          constructor
          · intro _
            refine ⟨[], key, bxs, gs, v, rfl, rfl, by omega, .inr ?_⟩
            exact (processPeers_none_iff (List.Nodup.filter _ hnd)).1 hps
          · intro _
            rfl
        | some v₃ =>
          rw [processGroups_cons_twins h₂ h₃ hps, ih]
          constructor
          · rintro ⟨gs₁, key', bxs', gs₂, v', hsplit, hpre, hge, hcause⟩
            refine ⟨(key, bxs) :: gs₁, key', bxs', gs₂, v',
              by rw [hsplit, List.cons_append], ?_, hge, hcause⟩
            rw [processGroups_cons_twins h₂ h₃ hps]
            exact hpre
          · rintro ⟨gs₁, key', bxs', gs₂, v', hsplit, hpre, hge, hcause⟩
            cases gs₁ with
            | nil =>
              rw [List.nil_append] at hsplit
              injection hsplit with hg hrest
              injection hg with hk hb
              exfalso
              rcases hcause with hgt | ⟨p, hp, hemp⟩
              · rw [← hb] at hgt; omega
              · have hpre' : v = v' := by
                  rw [processGroups] at hpre
                  exact Option.some.inj hpre
                rw [← hpre', ← hk] at hemp
                rw [← hb] at hp
                have : processPeers key v (unit.filter (fun b => decide (b ∉ bxs))) = none :=
                  (processPeers_none_iff (List.Nodup.filter _ hnd)).2 ⟨p, hp, hemp⟩
                rw [this] at hps
                cases hps
            | cons g₀ gs₁ =>
              rw [List.cons_append] at hsplit
              injection hsplit with hg hrest
              rw [← hg, processGroups_cons_twins h₂ h₃ hps] at hpre
              exact ⟨gs₁, key', bxs', gs₂, v', hrest, hpre, hge, hcause⟩

/-! ### Claims C5 and C6: `naked_twins` -/

/-- The first situation/second situation trigger of `naked_twins` inside one
unit: with the mapping `v'` reached after the preceding groups of the unit,
the next group either has three or more boxes sharing one two-candidate
domain, or is a twin pair whose digit removal empties another cell. -/
def unitContradiction (v : Mapping) (u : List Nat) : Prop :=
  ∃ gs₁ key bxs gs₂ v', groupsOf v u = gs₁ ++ (key, bxs) :: gs₂ ∧
    processGroups u v gs₁ = some v' ∧ 2 ≤ bxs.length ∧
    (2 < bxs.length ∨ ∃ p ∈ u.filter (fun b => decide (b ∉ bxs)),
      canonicalizeSet ((v'.getD p []).filter (fun d => decide (d ∉ key))) = [])

/-- `naked_twins` returns the empty failure dict exactly when, after some
prefix of the units processed normally, the next unit signals a
contradiction. -/
def ntFailure (v : Mapping) : Prop :=
  ∃ us₁ u us₂ v', unitlist = us₁ ++ u :: us₂ ∧ nakedTwinsGo v us₁ = .ok v' ∧
    processUnit v' u = .ok none

/-- C6 (confirmed): `naked_twins` returns the empty failure mapping exactly
when some unit's group loop hits one of the two contradiction situations —
a twin elimination emptying another cell of the unit, or three or more
cells of the unit sharing the same two-candidate domain (both judged on the
mapping current at that point of processing) — and it short-circuits: the
units after the offending one are never processed. -/
theorem claim_C6 : ∀ (v : Mapping) (u : List Nat), v.length = 81 → u ∈ unitlist →
    ((naked_twins v = .ok []) ↔ ntFailure v) ∧
    ((processUnit v u = .ok none) ↔ unitContradiction v u) ∧
    (processUnit v u = .ok none → ∀ rest, nakedTwinsGo v (u :: rest) = .ok []) := by
  intro v u h81 hu
  have hb : ∀ b ∈ u, b < v.length := fun b hbu => by
    rw [h81]; exact (unit_facts u hu).2.2 b hbu
  refine ⟨?_, ?_, ?_⟩
  · rw [naked_twins]
    exact nakedTwinsGo_empty_iff h81
  · constructor
    · intro h
      rw [processUnit_of_groups hb] at h
      have hnone : processGroups u v (groupsOf v u) = none := by
        have := Except.ok.inj h
        cases hgg : processGroups u v (groupsOf v u) with
        | none => rfl
        | some vv => rw [hgg] at this; cases this
      exact (processGroups_none_iff (unit_facts u hu).2.1).1 hnone
    · intro hc
      rw [processUnit_of_groups hb,
        (processGroups_none_iff (unit_facts u hu).2.1).2 hc]
  · intro hnone rest
    rw [nakedTwinsGo, hnone]

/-- C5 (corrected): the naked-twins guarantee holds per unit with the twin
premise read at the moment the unit is processed (the claim as stated —
premise on the input mapping — fails, because units processed earlier can
strip a twin digit first; see the counterexample).  If, when unit `u` comes
up, cells `X ≠ Y` of `u` both have domain exactly `{d₁, d₂}` and no other
cell of `u` has that exact domain, then in any non-failure final output no
cell of `u` other than `X` and `Y` has `d₁` or `d₂` in its domain. -/
theorem claim_C5 : ∀ (us₁ us₂ : List (List Nat)) (u : List Nat)
    (v v₁ w : Mapping) (X Y d₁ d₂ : Nat),
    unitlist = us₁ ++ u :: us₂ → v.length = 81 →
    nakedTwinsGo v us₁ = .ok v₁ → v₁ ≠ [] →
    X ∈ u → Y ∈ u → X ≠ Y → d₁ ≠ d₂ →
    canonicalize (v₁.getD X []) = canonicalize [d₁, d₂] →
    canonicalize (v₁.getD Y []) = canonicalize [d₁, d₂] →
    (∀ b ∈ u, b ≠ X → b ≠ Y →
      canonicalize (v₁.getD b []) ≠ canonicalize [d₁, d₂]) →
    naked_twins v = .ok w → w ≠ [] →
    ∀ b ∈ u, b ≠ X → b ≠ Y → d₁ ∉ w.getD b [] ∧ d₂ ∉ w.getD b [] := by
  intro us₁ us₂ u v v₁ w X Y d₁ d₂ hsplit h81 hgo hv₁ne hX hY hXY hdd
    hcanX hcanY hother hw hwne
  have hu : u ∈ unitlist := by
    rw [hsplit]
    exact List.mem_append.2 (.inr (.head us₂))
  have hnt : naked_twins v = nakedTwinsGo v₁ (u :: us₂) := by
    rw [naked_twins, hsplit]
    exact nakedTwinsGo_append_ok hv₁ne hgo (u :: us₂)
  rw [hnt, nakedTwinsGo] at hw
  split at hw
  · cases hw
  · cases hw
    exact absurd rfl hwne
  · next v₂ hpu =>
    have hkeylen : (canonicalize [d₁, d₂]).length = 2 := by
      rw [length_canonicalize]
      rfl
    have hkmem : canonicalize [d₁, d₂] ∈ twinKeys v₁ u :=
      twinKeys_mem.2 ⟨⟨X, hX, hcanX⟩, hkeylen⟩
    have hgb : ∀ b, b ∈ groupBoxes v₁ u (canonicalize [d₁, d₂]) ↔ (b = X ∨ b = Y) := by
      intro b
      rw [groupBoxes_mem]
      constructor
      · rintro ⟨hbu, hbc⟩
        by_contra hcon
        push_neg at hcon
        exact hother b hbu hcon.1 hcon.2 hbc
      · rintro (rfl | rfl)
        · exact ⟨hX, hcanX⟩
        · exact ⟨hY, hcanY⟩
    have hgbnodup : (groupBoxes v₁ u (canonicalize [d₁, d₂])).Nodup :=
      List.Nodup.filter _ (unit_facts u hu).2.1
    have hgblen : (groupBoxes v₁ u (canonicalize [d₁, d₂])).length = 2 := by
      have hxy : ([X, Y] : List Nat).Nodup := by simp [hXY]
      have hperm : (groupBoxes v₁ u (canonicalize [d₁, d₂])).Perm [X, Y] :=
        (List.perm_ext_iff_of_nodup hgbnodup hxy).2 (fun b => by rw [hgb b]; simp)
      rw [hperm.length_eq]
      rfl
    rcases List.append_of_mem hkmem with ⟨t₁, t₂, hkeys⟩
    have hgroups : groupsOf v₁ u =
        (t₁.map (fun k => (k, groupBoxes v₁ u k))) ++
          (canonicalize [d₁, d₂], groupBoxes v₁ u (canonicalize [d₁, d₂])) ::
            (t₂.map (fun k => (k, groupBoxes v₁ u k))) := by
      rw [groupsOf, hkeys, List.map_append, List.map_cons]
    have hpg : processGroups u v₁ (groupsOf v₁ u) = some v₂ := processUnit_some_inv hpu
    rw [hgroups, processGroups_append] at hpg
    cases hpre : processGroups u v₁ (t₁.map (fun k => (k, groupBoxes v₁ u k))) with
    | none =>
      rw [hpre] at hpg
      have hfalse : (none : Option Mapping) = some v₂ := hpg
      cases hfalse
    | some vmid =>
      rw [hpre] at hpg
      have hpg₂ : processGroups u vmid
          ((canonicalize [d₁, d₂], groupBoxes v₁ u (canonicalize [d₁, d₂])) ::
            t₂.map (fun k => (k, groupBoxes v₁ u k))) = some v₂ := hpg
      have h₂ : ¬ (groupBoxes v₁ u (canonicalize [d₁, d₂])).length < 2 := by omega
      have h₃ : ¬ (groupBoxes v₁ u (canonicalize [d₁, d₂])).length > 2 := by omega
      cases hps : processPeers (canonicalize [d₁, d₂]) vmid
          (u.filter (fun b => decide (b ∉ groupBoxes v₁ u (canonicalize [d₁, d₂])))) with
      | none => rw [processGroups_cons_emptied h₂ h₃ hps] at hpg₂; cases hpg₂
      | some v₃ =>
        rw [processGroups_cons_twins h₂ h₃ hps] at hpg₂
        intro b hbu hbX hbY
        have hbfil : b ∈ u.filter
            (fun b => decide (b ∉ groupBoxes v₁ u (canonicalize [d₁, d₂]))) := by
          refine List.mem_filter.2 ⟨hbu, ?_⟩
          rw [decide_eq_true_eq]
          intro hmem
          rcases (hgb b).1 hmem with rfl | rfl
          · exact hbX rfl
          · exact hbY rfl
        have hd₁ : d₁ ∈ canonicalize [d₁, d₂] := mem_canonicalize.2 (.head _)
        have hd₂ : d₂ ∈ canonicalize [d₁, d₂] := mem_canonicalize.2 (.tail _ (.head _))
        have h₁₃ : d₁ ∉ v₃.getD b [] := processPeers_removes hps b hbfil d₁ hd₁
        have h₂₃ : d₂ ∉ v₃.getD b [] := processPeers_removes hps b hbfil d₂ hd₂
        exact ⟨fun hh => h₁₃ (processGroups_subset hpg₂ b d₁
            (nakedTwinsGo_subset hw hwne b d₁ hh)),
          fun hh => h₂₃ (processGroups_subset hpg₂ b d₂
            (nakedTwinsGo_subset hw hwne b d₂ hh))⟩

/-- The result of `naked_twins` with a raised `KeyError` collapsed to `[]`,
so concrete runs are decidable. -/
def ntResult (v : Mapping) : Mapping :=
  match naked_twins v with
  | .ok w => w
  | .error _ => []

def ntResultOk (v : Mapping) : Bool :=
  match naked_twins v with
  | .ok _ => true
  | .error _ => false

/-- Input refuting C5 as stated: column 1 has the exact twins `{1,2}` at
`A1` and `B1` in the input, but row A (processed first) holds twins `{1,3}`
at `A2`, `A3` whose elimination strips the `1` from `A1` before column 1 is
reached, so the column-1 pair is no longer recognised. -/
def mC5 : Mapping :=
  [[1, 2], [1, 3], [1, 3]] ++ List.replicate 6 digits ++ [[1, 2]] ++
    List.replicate 71 digits

/-- C5, counterexample to the claim as stated: in the input `mC5` the
column-1 unit has exactly two cells (`A1 = 0` and `B1 = 9`) with domain
exactly `{1,2}` and no other cell of the unit sharing it, `naked_twins`
returns a non-failure mapping, and yet cell `D1 = 27` of that unit still
has both `1` and `2` in its domain. -/
theorem claim_C5_counterexample :
    (cross rows [0]) ∈ unitlist ∧ 0 ∈ cross rows [0] ∧ 9 ∈ cross rows [0] ∧
    (0 : Nat) ≠ 9 ∧ (1 : Nat) ≠ 2 ∧
    canonicalize (mC5.getD 0 []) = canonicalize [1, 2] ∧
    canonicalize (mC5.getD 9 []) = canonicalize [1, 2] ∧
    (∀ b ∈ cross rows [0], b ≠ 0 → b ≠ 9 →
      canonicalize (mC5.getD b []) ≠ canonicalize [1, 2]) ∧
    ntResultOk mC5 = true ∧ ntResult mC5 ≠ [] ∧
    27 ∈ cross rows [0] ∧ (27 : Nat) ≠ 0 ∧ (27 : Nat) ≠ 9 ∧
    1 ∈ (ntResult mC5).getD 27 [] ∧ 2 ∈ (ntResult mC5).getD 27 [] := by
  decide!

/-- The twin premise of the amended C5, realised at the very first unit. -/
def mC5w : Mapping := [[1, 2], [1, 2]] ++ List.replicate 79 digits

theorem claim_C5_witness :
    unitlist = [] ++ (cross [0] cols) :: unitlist.tail ∧
    naked_twins mC5w = .ok (ntResult mC5w) ∧ ntResult mC5w ≠ [] ∧
    (1 ∉ (ntResult mC5w).getD 2 [] ∧ 2 ∉ (ntResult mC5w).getD 2 []) := by
  refine ⟨by decide, by decide!, by decide!, ?_⟩
  exact claim_C5 [] unitlist.tail (cross [0] cols) mC5w mC5w (ntResult mC5w) 0 1 1 2
    (by decide) (by decide) rfl (by decide) (by decide) (by decide) (by decide)
    (by decide) (by decide) (by decide) (by decide) (by decide!) (by decide!)
    2 (by decide) (by decide) (by decide)

/-- Three cells of row A sharing the two-candidate domain `{1,2}`. -/
def mC6 : Mapping := [[1, 2], [1, 2], [1, 2]] ++ List.replicate 78 digits

theorem claim_C6_witness :
    mC6.length = 81 ∧ (cross [0] cols) ∈ unitlist ∧
    processUnit mC6 (cross [0] cols) = .ok none ∧
    nakedTwinsGo mC6 (cross [0] cols :: []) = .ok [] := by
  have hC := claim_C6 mC6 (cross [0] cols) (by decide) (by decide)
  have hnone : processUnit mC6 (cross [0] cols) = .ok none := by decide!
  exact ⟨by decide, by decide, hnone, hC.2.2 hnone []⟩

/-! ### Heap/trace model for mutation and the assignment trace

The Python functions mutate dict objects and append to the module-level
`assignments` list.  To state the framing claims (C9) and the trace claims
(C10) the same functions are rendered once more over an explicit heap: a
`Heap` is the list of live dict objects, a reference is an index into it,
`dict.copy()` is an allocation at the end of the heap, and the trace is
threaded through every call exactly where Python's global grows. -/

abbrev Heap := List Mapping

abbrev Trace := List Mapping

def readH (h : Heap) (r : Nat) : Mapping := h.getD r []

def writeH (h : Heap) (r : Nat) (m : Mapping) : Heap := h.set r m

/-- `assign_value(values, box, value)`: write through the reference, and if
the new value is a single digit append a full snapshot (`values.copy()`)
to the global trace — also when the cell already held that value. -/
def assign_value (h : Heap) (tr : Trace) (r : Nat) (box : Nat)
    (value : Domain) : Heap × Trace :=
  let h' := writeH h r ((readH h r).set box value)
  (h', if value.length = 1 then tr ++ [readH h' r] else tr)

/-- `eliminate` over the heap: allocate `grid = values.copy()`, then the box
loop, every peer update routed through `assign_value`.  Returns the heap,
the trace and the reference of `grid`. -/
def elimPeerStepH (g : Nat) (choices : Domain) (ht : Heap × Trace) (p : Nat) :
    Heap × Trace :=
  assign_value ht.1 ht.2 g p
    (((readH ht.1 g).getD p []).filter (fun d => decide (d ∉ choices)))

def elimBoxStepH (g : Nat) (ht : Heap × Trace) (box : Nat) : Heap × Trace :=
  let choices := (readH ht.1 g).getD box []
  if choices.length = 1 then (peersOf box).foldl (elimPeerStepH g choices) ht
  else ht

def elimH (h : Heap) (tr : Trace) (r : Nat) : Heap × Trace × Nat :=
  let g := h.length
  let h₁ := h ++ [readH h r]
  let ht₂ := (List.range (readH h₁ g).length).foldl (elimBoxStepH g) (h₁, tr)
  (ht₂.1, ht₂.2, g)

/-- `only_choice` over the heap: allocate `result = values.copy()`,
membership is read from the original reference `r`, assignments go through
`assign_value` into the copy. -/
def ocDigitStepH (r g : Nat) (unit : List Nat) (ht : Heap × Trace)
    (digit : Nat) : Except Err (Heap × Trace) :=
  match boxesWith (readH ht.1 r) digit unit with
  | .error e => .error e
  | .ok bwd =>
    .ok (match bwd with
         | [b] => assign_value ht.1 ht.2 g b [digit]
         | _ => ht)

def ocUnitStepH (r g : Nat) (ht : Heap × Trace) (unit : List Nat) :
    Except Err (Heap × Trace) :=
  digits.foldlM (ocDigitStepH r g unit) ht

def ocH (h : Heap) (tr : Trace) (r : Nat) : Except Err (Heap × Trace × Nat) :=
  let g := h.length
  let h₁ := h ++ [readH h r]
  match unitlist.foldlM (ocUnitStepH r g) (h₁, tr) with
  | .error e => .error e
  | .ok ht₂ => .ok (ht₂.1, ht₂.2, g)

/-- The peer loop of one twin group of `naked_twins`, over the heap. -/
def processPeersH (key : List Nat) (g : Nat) :
    Heap → Trace → List Nat → Option (Heap × Trace)
  | h, tr, [] => some (h, tr)
  | h, tr, p :: ps =>
    let newChoices :=
      canonicalizeSet (((readH h g).getD p []).filter (fun d => decide (d ∉ key)))
    if newChoices = [] then none
    else
      let ht := assign_value h tr g p newChoices
      processPeersH key g ht.1 ht.2 ps

/-- The group loop of one unit of `naked_twins`, over the heap. -/
def processGroupsH (unit : List Nat) (g : Nat) :
    Heap → Trace → List (List Nat × List Nat) → Option (Heap × Trace)
  | h, tr, [] => some (h, tr)
  | h, tr, (key, bxs) :: rest =>
    if bxs.length < 2 then processGroupsH unit g h tr rest
    else if bxs.length > 2 then none
    else
      match processPeersH key g h tr (unit.filter (fun b => decide (b ∉ bxs))) with
      | none => none
      | some ht => processGroupsH unit g ht.1 ht.2 rest

/-- The unit loop of `naked_twins` over the heap; the short-circuiting
`return {}` allocates a fresh empty dict and returns its reference. -/
def ntGoH (g : Nat) : Heap → Trace → List (List Nat) → Except Err (Heap × Trace × Nat)
  | h, tr, [] => .ok (h, tr, g)
  | h, tr, unit :: rest =>
    match domsOf (readH h g) unit with
    | .error e => .error e
    | .ok _ =>
      match processGroupsH unit g h tr (groupsOf (readH h g) unit) with
      | none => .ok (h ++ [[]], tr, h.length)
      | some ht => ntGoH g ht.1 ht.2 rest

/-- `naked_twins` over the heap: `values = values.copy()`, then the unit
loop on the copy. -/
def naked_twinsH (h : Heap) (tr : Trace) (r : Nat) : Except Err (Heap × Trace × Nat) :=
  let g := h.length
  ntGoH g (h ++ [readH h r]) tr unitlist

/-- `reduce_puzzle` over the heap; `return {}` allocates a fresh empty
dict, the stalled exit returns the current reference. -/
def rpH : Nat → Heap → Trace → Nat → Except Err (Heap × Trace × Nat)
  | 0, _, _, _ => .error .noFuel
  | fuel + 1, h, tr, v =>
    let before := solvedCount (readH h v)
    let e := elimH h tr v
    match ocH e.1 e.2.1 e.2.2 with
    | .error er => .error er
    | .ok o =>
      if emptyCount (readH o.1 o.2.2) ≠ 0 then .ok (o.1 ++ [[]], o.2.1, o.1.length)
      else if solvedCount (readH o.1 o.2.2) = before then .ok o
      else rpH fuel o.1 o.2.1 o.2.2

/-- The digit loop of `search` over the heap: each assignment mutates this
frame's own mapping object, the recursion (`prev`) runs on it, the first
non-empty solution reference is returned, exhaustion returns a fresh `{}`. -/
def searchDigitsH (prev : Heap → Trace → Nat → Except Err (Heap × Trace × Nat))
    (sq : Nat) : Heap → Trace → Nat → List Nat → Except Err (Heap × Trace × Nat)
  | h, tr, _, [] => .ok (h ++ [[]], tr, h.length)
  | h, tr, v, d :: ds =>
    let ht := assign_value h tr v sq [d]
    match prev ht.1 ht.2 v with
    | .error e => .error e
    | .ok s =>
      if (readH s.1 s.2.2).isEmpty then searchDigitsH prev sq s.1 s.2.1 v ds
      else .ok s

/-- `search` over the heap: copy, reduce, and branch as in the pure model,
with all mutation explicit. -/
def searchH : Nat → Heap → Trace → Nat → Except Err (Heap × Trace × Nat)
  | 0, _, _, _ => .error .noFuel
  | fuel + 1, h, tr, r =>
    let g := h.length
    let h₁ := h ++ [readH h r]
    match rpH 82 h₁ tr g with
    | .error e => .error e
    | .ok o =>
      let v := o.2.2
      if (readH o.1 v).isEmpty then .ok (o.1 ++ [[]], o.2.1, o.1.length)
      else
        match (List.range (readH o.1 v).length).filter
            (fun i => decide (1 < ((readH o.1 v).getD i []).length)) with
        | [] => .ok o
        | b :: bs =>
          let fewest := bs.foldl
            (fun best i =>
              if ((readH o.1 v).getD i []).length < ((readH o.1 v).getD best []).length
              then i else best) b
          searchDigitsH (fun hh trtr rr => searchH fuel hh trtr rr) fewest
            o.1 o.2.1 v ((readH o.1 v).getD fewest [])

/-- Heap extension: the first `n` objects are unchanged and the heap is at
least `n` long. -/
def HeapExt (n : Nat) (h h' : Heap) : Prop :=
  n ≤ h'.length ∧ ∀ i, i < n → readH h' i = readH h i

theorem heapExt_refl {n : Nat} {h : Heap} (hn : n ≤ h.length) : HeapExt n h h :=
  ⟨hn, fun _ _ => rfl⟩

theorem heapExt_trans {n : Nat} {h₁ h₂ h₃ : Heap} (a : HeapExt n h₁ h₂)
    (b : HeapExt n h₂ h₃) : HeapExt n h₁ h₃ :=
  ⟨b.1, fun i hi => (b.2 i hi).trans (a.2 i hi)⟩

theorem heapExt_mono {n m : Nat} {h h' : Heap} (hmn : m ≤ n)
    (a : HeapExt n h h') : HeapExt m h h' :=
  ⟨le_trans hmn a.1, fun i hi => a.2 i (by omega)⟩

theorem heapExt_append {n : Nat} {h : Heap} {l : Heap} (hn : n ≤ h.length) :
    HeapExt n h (h ++ l) := by
  refine ⟨by rw [List.length_append]; omega, fun i hi => ?_⟩
  rw [readH, readH, List.getD_eq_getElem?_getD, List.getD_eq_getElem?_getD,
    List.getElem?_append_left (by omega)]

theorem heapExt_write {n : Nat} {h : Heap} {g : Nat} {m : Mapping}
    (hn : n ≤ h.length) (hg : n ≤ g) : HeapExt n h (writeH h g m) := by
  refine ⟨by rw [writeH, List.length_set]; omega, fun i hi => ?_⟩
  rw [writeH, readH, readH, getD_set_ne (by omega)]

theorem heapExt_length {n : Nat} {h h' : Heap} (_ : n ≤ h.length)
    (a : HeapExt n h h') : n ≤ h'.length := a.1

theorem assign_value_frame {n : Nat} {h : Heap} {tr : Trace} {r box : Nat}
    {value : Domain} (hn : n ≤ h.length) (hr : n ≤ r) :
    HeapExt n h (assign_value h tr r box value).1 :=
  heapExt_write hn hr

theorem assign_value_pre {h : Heap} {tr : Trace} {r box : Nat}
    {value : Domain} : List.IsPrefix tr (assign_value h tr r box value).2 := by
  rw [assign_value]
  split
  · exact List.prefix_append tr _
  · exact List.prefix_refl tr

theorem assign_value_length {h : Heap} {tr : Trace} {r box : Nat}
    {value : Domain} : (assign_value h tr r box value).1.length = h.length := by
  rw [assign_value, writeH]
  exact List.length_set h r _

/-- Frame and trace-prefix invariant for the heap `eliminate`: everything
below the original heap top is untouched, the trace only grows, and the
returned reference is the fresh copy. -/
theorem elimH_spec (h : Heap) (tr : Trace) (r : Nat) :
    HeapExt h.length h (elimH h tr r).1 ∧
    List.IsPrefix tr (elimH h tr r).2.1 ∧ (elimH h tr r).2.2 = h.length := by
  rw [elimH]
  have hinv := foldl_invariant
    (fun (ht : Heap × Trace) => HeapExt h.length h ht.1 ∧ List.IsPrefix tr ht.2)
    (elimBoxStepH h.length)
    (List.range (readH (h ++ [readH h r]) h.length).length) (h ++ [readH h r], tr)
    ⟨heapExt_append (le_refl _), List.prefix_refl tr⟩ ?_
  · exact ⟨hinv.1, hinv.2, rfl⟩
  · intro ht box _ hP
    rw [elimBoxStepH]
    split
    · refine foldl_invariant
        (fun (ht₂ : Heap × Trace) => HeapExt h.length h ht₂.1 ∧ List.IsPrefix tr ht₂.2)
        (elimPeerStepH h.length _) (peersOf box) ht hP ?_
      intro ht₂ p _ hP₂
      rw [elimPeerStepH]
      exact ⟨heapExt_trans hP₂.1
          (assign_value_frame (heapExt_length (le_refl _) hP₂.1) (le_refl _)),
        hP₂.2.trans assign_value_pre⟩
    · exact hP

theorem ocH_spec {h : Heap} {tr : Trace} {r : Nat} {h' : Heap} {tr' : Trace}
    {g' : Nat} (hoc : ocH h tr r = .ok (h', tr', g')) :
    HeapExt h.length h h' ∧ List.IsPrefix tr tr' ∧ g' = h.length := by
  rw [ocH] at hoc
  split at hoc
  · cases hoc
  · next ht₂ hfold =>
    cases hoc
    have hinv := foldlM_except_invariant
      (fun (ht : Heap × Trace) => HeapExt h.length h ht.1 ∧ List.IsPrefix tr ht.2)
      (ocUnitStepH r h.length) unitlist (h ++ [readH h r], tr) ht₂ ?_
      ⟨heapExt_append (le_refl _), List.prefix_refl tr⟩ hfold
    · exact ⟨hinv.1, hinv.2, rfl⟩
    · intro ht unit ht₁ _ hstep hP
      refine foldlM_except_invariant
        (fun (x : Heap × Trace) => HeapExt h.length h x.1 ∧ List.IsPrefix tr x.2)
        (ocDigitStepH r h.length unit) digits ht ht₁ ?_ hP hstep
      intro x digit x₁ _ hx hxP
      rw [ocDigitStepH] at hx
      split at hx
      · cases hx
      · next bwd hbw =>
        cases hx
        split
        · next b =>
          exact ⟨heapExt_trans hxP.1
              (assign_value_frame (heapExt_length (le_refl _) hxP.1) (le_refl _)),
            hxP.2.trans assign_value_pre⟩
        · exact hxP

theorem processPeersH_spec {key : List Nat} {g n : Nat} (hg : n ≤ g) :
    ∀ {ps : List Nat} {h : Heap} {tr : Trace} {h' : Heap} {tr' : Trace},
      n ≤ h.length → processPeersH key g h tr ps = some (h', tr') →
      HeapExt n h h' ∧ List.IsPrefix tr tr' := by
  intro ps
  induction ps with
  | nil =>
    intro h tr h' tr' hn hp
    rw [processPeersH] at hp
    cases hp
    exact ⟨heapExt_refl hn, List.prefix_refl tr⟩
  | cons p ps ih =>
    intro h tr h' tr' hn hp
    rw [processPeersH] at hp
    split at hp
    · cases hp
    · have hfr : HeapExt n h (assign_value h tr g p
          (canonicalizeSet (((readH h g).getD p []).filter
            (fun d => decide (d ∉ key))))).1 :=
        assign_value_frame hn hg
      have hln : n ≤ (assign_value h tr g p
          (canonicalizeSet (((readH h g).getD p []).filter
            (fun d => decide (d ∉ key))))).1.length := by
        rw [assign_value_length]; exact hn
      rcases ih hln hp with ⟨he, hpre⟩
      exact ⟨heapExt_trans hfr he, List.IsPrefix.trans assign_value_pre hpre⟩

theorem processGroupsH_spec {unit : List Nat} {g n : Nat} (hg : n ≤ g) :
    ∀ {gs : List (List Nat × List Nat)} {h : Heap} {tr : Trace} {h' : Heap}
      {tr' : Trace}, n ≤ h.length → processGroupsH unit g h tr gs = some (h', tr') →
      HeapExt n h h' ∧ List.IsPrefix tr tr' := by
  intro gs
  induction gs with
  | nil =>
    intro h tr h' tr' hn hp
    rw [processGroupsH] at hp
    cases hp
    exact ⟨heapExt_refl hn, List.prefix_refl tr⟩
  | cons gqq gs ih =>
    intro h tr h' tr' hn hp
    obtain ⟨key, bxs⟩ := gqq
    rw [processGroupsH] at hp
    split at hp
    · exact ih hn hp
    · split at hp
      · cases hp
      · split at hp
        · cases hp
        · next ht hps =>
          rcases processPeersH_spec hg hn hps with ⟨he, hpre⟩
          rcases ih (heapExt_length hn he) hp with ⟨he₂, hpre₂⟩
          exact ⟨heapExt_trans he he₂, hpre.trans hpre₂⟩

theorem ntGoH_spec {g n : Nat} (hg : n ≤ g) :
    ∀ {us : List (List Nat)} {h : Heap} {tr : Trace} {h' : Heap} {tr' : Trace}
      {r' : Nat}, n ≤ h.length → ntGoH g h tr us = .ok (h', tr', r') →
      HeapExt n h h' ∧ List.IsPrefix tr tr' ∧ n ≤ r' := by
  intro us
  induction us with
  | nil =>
    intro h tr h' tr' r' hn hp
    rw [ntGoH] at hp
    cases hp
    exact ⟨heapExt_refl hn, List.prefix_refl tr, hg⟩
  | cons unit us ih =>
    intro h tr h' tr' r' hn hp
    rw [ntGoH] at hp
    split at hp
    · cases hp
    · split at hp
      · cases hp
        exact ⟨heapExt_append hn, List.prefix_refl tr, hn⟩
      · next ht hpg =>
        rcases processGroupsH_spec hg hn hpg with ⟨he, hpre⟩
        rcases ih (heapExt_length hn he) hp with ⟨he₂, hpre₂, hr⟩
        exact ⟨heapExt_trans he he₂, hpre.trans hpre₂, hr⟩

theorem naked_twinsH_spec {h : Heap} {tr : Trace} {r : Nat} {h' : Heap}
    {tr' : Trace} {r' : Nat} (hp : naked_twinsH h tr r = .ok (h', tr', r')) :
    HeapExt h.length h h' ∧ List.IsPrefix tr tr' ∧ h.length ≤ r' := by
  rw [naked_twinsH] at hp
  rcases ntGoH_spec (le_refl h.length)
      (by rw [List.length_append]; exact Nat.le_add_right _ _) hp with ⟨he, hpre, hr⟩
  exact ⟨heapExt_trans (heapExt_append (le_refl _)) he, hpre, hr⟩

theorem rpH_spec : ∀ {fuel : Nat} {h : Heap} {tr : Trace} {v : Nat} {h' : Heap}
    {tr' : Trace} {v' : Nat}, rpH fuel h tr v = .ok (h', tr', v') →
    HeapExt h.length h h' ∧ List.IsPrefix tr tr' ∧ h.length ≤ v' := by
  intro fuel
  induction fuel with
  | zero => intro h tr v h' tr' v' hp; cases hp
  | succ fuel ih =>
    intro h tr v h' tr' v' hp
    rw [rpH] at hp
    rcases elimH_spec h tr v with ⟨heE, hpreE, hgE⟩
    split at hp
    · cases hp
    · next o hoc =>
      obtain ⟨hO, trO, vO⟩ := o
      rcases ocH_spec hoc with ⟨heO, hpreO, hgO⟩
      have hlenE : h.length ≤ (elimH h tr v).1.length := heapExt_length (le_refl _) heE
      have heHO : HeapExt h.length h hO :=
        heapExt_trans heE (heapExt_mono hlenE heO)
      have hlenO : h.length ≤ hO.length := heapExt_length (le_refl _) heHO
      have hpreHO : List.IsPrefix tr trO := hpreE.trans hpreO
      split at hp
      · cases hp
        exact ⟨heapExt_trans heHO (heapExt_append hlenO), hpreHO, hlenO⟩
      · split at hp
        · cases hp
          refine ⟨heHO, hpreHO, ?_⟩
          rw [hgO]
          exact hlenE
        · rcases ih hp with ⟨he₂, hpre₂, hv₂⟩
          exact ⟨heapExt_trans heHO (heapExt_mono hlenO he₂),
            hpreHO.trans hpre₂, le_trans hlenO hv₂⟩

theorem searchDigitsH_spec
    {prev : Heap → Trace → Nat → Except Err (Heap × Trace × Nat)}
    (hprev : ∀ h tr r h' tr' r', prev h tr r = .ok (h', tr', r') →
      HeapExt h.length h h' ∧ List.IsPrefix tr tr' ∧ h.length ≤ r')
    {sq n : Nat} :
    ∀ {ds : List Nat} {h : Heap} {tr : Trace} {v : Nat} {h' : Heap} {tr' : Trace}
      {r' : Nat}, n ≤ v → n ≤ h.length →
      searchDigitsH prev sq h tr v ds = .ok (h', tr', r') →
      HeapExt n h h' ∧ List.IsPrefix tr tr' ∧ n ≤ r' := by
  intro ds
  induction ds with
  | nil =>
    intro h tr v h' tr' r' hv hn hp
    rw [searchDigitsH] at hp
    cases hp
    exact ⟨heapExt_append hn, List.prefix_refl tr, hn⟩
  | cons d ds ih =>
    intro h tr v h' tr' r' hv hn hp
    rw [searchDigitsH] at hp
    have hfr : HeapExt n h (assign_value h tr v sq [d]).1 := assign_value_frame hn hv
    have hln : n ≤ (assign_value h tr v sq [d]).1.length := by
      rw [assign_value_length]; exact hn
    split at hp
    · cases hp
    · next s hs =>
      obtain ⟨hS, trS, rS⟩ := s
      rcases hprev _ _ _ _ _ _ hs with ⟨heS, hpreS, hrS⟩
      have heHS : HeapExt n h hS :=
        heapExt_trans hfr (heapExt_mono hln heS)
      have hpreHS : List.IsPrefix tr trS :=
        List.IsPrefix.trans assign_value_pre hpreS
      split at hp
      · rcases ih hv (heapExt_length hn heHS) hp with ⟨he₂, hpre₂, hr₂⟩
        exact ⟨heapExt_trans heHS he₂, hpreHS.trans hpre₂, hr₂⟩
      · cases hp
        exact ⟨heHS, hpreHS, le_trans hln hrS⟩

theorem searchH_spec : ∀ {fuel : Nat} {h : Heap} {tr : Trace} {r : Nat}
    {h' : Heap} {tr' : Trace} {r' : Nat},
    searchH fuel h tr r = .ok (h', tr', r') →
    HeapExt h.length h h' ∧ List.IsPrefix tr tr' ∧ h.length ≤ r' := by
  intro fuel
  induction fuel with
  | zero => intro h tr r h' tr' r' hp; cases hp
  | succ fuel ih =>
    intro h tr r h' tr' r' hp
    rw [searchH] at hp
    split at hp
    · cases hp
    · next o hrp =>
      obtain ⟨hO, trO, vO⟩ := o
      rcases rpH_spec hrp with ⟨heO, hpreO, hvO⟩
      rw [List.length_append] at hvO
      have heHO : HeapExt h.length h hO :=
        heapExt_trans (heapExt_append (le_refl _)) (heapExt_mono (by simp) heO)
      have hlenO : h.length ≤ hO.length := heapExt_length (le_refl _) heHO
      have hpreHO : List.IsPrefix tr trO := hpreO
      dsimp only at hp
      split at hp
      · cases hp
        exact ⟨heapExt_trans heHO (heapExt_append hlenO), hpreHO, hlenO⟩
      · split at hp
        · cases hp
          exact ⟨heHO, hpreHO, by omega⟩
        · rcases searchDigitsH_spec (fun a b c d e f hh => ih hh)
            (by omega : h.length ≤ vO) hlenO hp with ⟨he₂, hpre₂, hr₂⟩
          exact ⟨heapExt_trans heHO he₂, hpreHO.trans hpre₂, hr₂⟩

/-! ### Claims C9 and C10: framing and the assignment trace -/

/-- C9 (confirmed): `eliminate`, `only_choice`, `naked_twins` and `search`
never write to any pre-existing heap object — in particular the caller's
mapping (reference `r < h.length`) holds exactly the same domains after the
call as before; all mutation happens on the fresh local copy each function
allocates. -/
theorem claim_C9 : ∀ (h : Heap) (tr : Trace) (r : Nat), r < h.length →
    (∀ i, i < h.length → readH (elimH h tr r).1 i = readH h i) ∧
    (∀ h' tr' r', ocH h tr r = .ok (h', tr', r') →
      ∀ i, i < h.length → readH h' i = readH h i) ∧
    (∀ h' tr' r', naked_twinsH h tr r = .ok (h', tr', r') →
      ∀ i, i < h.length → readH h' i = readH h i) ∧
    (∀ fuel h' tr' r', searchH fuel h tr r = .ok (h', tr', r') →
      ∀ i, i < h.length → readH h' i = readH h i) := by
  intro h tr r _
  exact ⟨fun i hi => (elimH_spec h tr r).1.2 i hi,
    fun h' tr' r' hoc i hi => (ocH_spec hoc).1.2 i hi,
    fun h' tr' r' hnt i hi => (naked_twinsH_spec hnt).1.2 i hi,
    fun fuel h' tr' r' hs i hi => (searchH_spec hs).1.2 i hi⟩

def okH (e : Except Err (Heap × Trace × Nat)) : Heap × Trace × Nat :=
  match e with
  | .ok x => x
  | .error _ => ([], [], 0)

def ocAF : Heap × Trace × Nat := okH (ocH [allFull] [] 0)

def ntAF : Heap × Trace × Nat := okH (naked_twinsH [allFull] [] 0)

def sC3 : Heap × Trace × Nat := okH (searchH 1 [mC3] [] 0)

theorem claim_C9_witness :
    (0 : Nat) < ([allFull] : Heap).length ∧
    readH (elimH [allFull] [] 0).1 0 = readH [allFull] 0 ∧
    (ocH [allFull] [] 0 = .ok (ocAF.1, ocAF.2.1, ocAF.2.2) ∧
      readH ocAF.1 0 = readH [allFull] 0) ∧
    (naked_twinsH [allFull] [] 0 = .ok (ntAF.1, ntAF.2.1, ntAF.2.2) ∧
      readH ntAF.1 0 = readH [allFull] 0) ∧
    (searchH 1 [mC3] [] 0 = .ok (sC3.1, sC3.2.1, sC3.2.2) ∧
      readH sC3.1 0 = readH [mC3] 0) := by
  have hC := claim_C9 [allFull] [] 0 (by decide)
  have hC₂ := claim_C9 [mC3] [] 0 (by decide)
  have ho : ocH [allFull] [] 0 = .ok (ocAF.1, ocAF.2.1, ocAF.2.2) := by decide!
  have hn : naked_twinsH [allFull] [] 0 = .ok (ntAF.1, ntAF.2.1, ntAF.2.2) := by
    decide!
  have hs : searchH 1 [mC3] [] 0 = .ok (sC3.1, sC3.2.1, sC3.2.2) := by decide!
  exact ⟨by decide, hC.1 0 (by decide),
    ⟨ho, hC.2.1 ocAF.1 ocAF.2.1 ocAF.2.2 ho 0 (by decide)⟩,
    ⟨hn, hC.2.2.1 ntAF.1 ntAF.2.1 ntAF.2.2 hn 0 (by decide)⟩,
    ⟨hs, hC₂.2.2.2 1 sC3.1 sC3.2.1 sC3.2.2 hs 0 (by decide)⟩⟩

def no5 : Domain := [1, 2, 3, 4, 6, 7, 8, 9]

/-- A mapping on which `only_choice` re-assigns the already fixed `A1 = 5`
twice in a row (once for row A, once for column 1). -/
def mOC : Mapping :=
  [[5]] ++ List.replicate 8 no5 ++
    (List.replicate 8 ([no5] ++ List.replicate 8 digits)).flatten

/-- C10 (confirmed): every `assign_value` call with a single-digit value
appends a full snapshot to the trace — also when the cell already holds
exactly that value, in which case the appended snapshot equals the current
mapping, so the trace can contain consecutive duplicates (`only_choice` on
`mOC` appends the unchanged mapping twice in a row) — and no operation ever
removes or shortens the trace: each core function only extends it. -/
theorem claim_C10 :
    (∀ (h : Heap) (tr : Trace) (r box : Nat) (value : Domain),
      value.length = 1 → ∃ m, (assign_value h tr r box value).2 = tr ++ [m]) ∧
    (∀ (h : Heap) (tr : Trace) (r box : Nat) (value : Domain),
      value.length = 1 → r < h.length → (readH h r).getD box [] = value →
      (assign_value h tr r box value).2 = tr ++ [readH h r]) ∧
    ocH [mOC] [] 0 = .ok ([mOC, mOC], [mOC, mOC], 1) ∧
    (∀ h tr r, List.IsPrefix tr (elimH h tr r).2.1) ∧
    (∀ h tr r h' tr' r', ocH h tr r = .ok (h', tr', r') → List.IsPrefix tr tr') ∧
    (∀ h tr r h' tr' r', naked_twinsH h tr r = .ok (h', tr', r') →
      List.IsPrefix tr tr') ∧
    (∀ fuel h tr v h' tr' v', rpH fuel h tr v = .ok (h', tr', v') →
      List.IsPrefix tr tr') ∧
    (∀ fuel h tr r h' tr' r', searchH fuel h tr r = .ok (h', tr', r') →
      List.IsPrefix tr tr') := by
  refine ⟨?_, ?_, by decide!, fun h tr r => (elimH_spec h tr r).2.1,
    fun h tr r h' tr' r' hoc => (ocH_spec hoc).2.1,
    fun h tr r h' tr' r' hnt => (naked_twinsH_spec hnt).2.1,
    fun fuel h tr v h' tr' v' hrp => (rpH_spec hrp).2.1,
    fun fuel h tr r h' tr' r' hs => (searchH_spec hs).2.1⟩
  · intro h tr r box value hlen
    rw [assign_value]
    exact ⟨_, by rw [if_pos hlen]⟩
  · intro h tr r box value hlen hr hval
    rw [assign_value]
    have h₁ : (readH h r).set box value = readH h r := by
      rw [← hval]
      exact set_getD_self
    have h₂ : writeH h r (readH h r) = h := by
      rw [writeH, readH]
      exact set_getD_self
    rw [h₁, h₂, if_pos hlen]

theorem claim_C10_witness :
    (∃ m, (assign_value [mOC] [] 0 0 [7]).2 = [] ++ [m]) ∧
    (assign_value [mOC] [] 0 0 [5]).2 = [] ++ [readH [mOC] 0] ∧
    List.IsPrefix ([] : Trace) (elimH [mOC] [] 0).2.1 :=
  ⟨claim_C10.1 [mOC] [] 0 0 [7] (by decide),
   claim_C10.2.1 [mOC] [] 0 0 [5] (by decide) (by decide) (by decide),
   claim_C10.2.2.2.1 [mOC] [] 0⟩
